/-
Verification of the core retrieval pipeline of the `code-rag` semantic code
search engine (a Rust crate).  The Rust sources are shallowly embedded below:
pure functions become Lean functions, stateful code becomes explicit state
passing, the external collaborators (tree-sitter, tantivy, lancedb, the
embedding model, the LLM, the filesystem) become explicit environments of
outcomes supplied to the embedded control flow.  Machine floating point
scores are modelled over `ℚ` (the verified claims concern score formulas and
orderings, not rounding), `usize`/`u64` counters over `ℕ`, and `i32`/`i64`
fields over `ℤ`.  `HashMap` accumulators that the source only reads back
pointwise are modelled extensionally as functions; the one map whose value
*order* flows into the output (`all_vector_results.into_values()`) is modelled
as an insertion-ordered association list, and every theorem or counterexample
that depends on ordering is arranged to be insensitive to that choice (Rust's
`HashMap` iteration order is unspecified).

The file has two parts: first all definitions (the embedding), then all
theorems about them.
-/
import Mathlib

namespace CodeRag

/-! # Part 1: the embedding -/

/-! ### Generic list helpers (no Rust counterpart; used by several models) -/

/-- Boolean lexicographic comparison of character lists.  This is exactly the
order Rust uses on `String` (byte-wise comparison of UTF-8 agrees with
code-point-wise comparison). -/
def charListLeb : List Char → List Char → Bool
  | [], _ => true
  | _ :: _, [] => false
  | a :: as, b :: bs =>
    if a < b then true else if b < a then false else charListLeb as bs

/-- `strLeb s t` models Rust `s <= t` on `String`. -/
def strLeb (s t : String) : Bool := charListLeb s.data t.data

/-- Does `l` start with `p`?  (model of Rust `starts_with` on sequences). -/
def startsWithL : List Char → List Char → Bool
  | _, [] => true
  | [], _ :: _ => false
  | a :: as, b :: bs => a = b && startsWithL as bs

/-- Does `s` contain `pat` as a contiguous subsequence?  Models Rust
`str::contains` with a literal pattern. -/
def containsSubL : List Char → List Char → Bool
  | s, pat =>
    match s with
    | [] => pat.isEmpty
    | _ :: rest => startsWithL s pat || containsSubL rest pat

/-- `containsSub s pat` models Rust `s.contains(pat)` on strings. -/
def containsSub (s pat : String) : Bool := containsSubL s.data pat.data

/-- Does `l` end with `p`? (model of Rust `str::ends_with`). -/
def endsWithL (s pat : List Char) : Bool := startsWithL s.reverse pat.reverse

/-- `endsWith s pat` models Rust `s.ends_with(pat)` on strings. -/
def endsWith (s pat : String) : Bool := endsWithL s.data pat.data

/-- Sum of UTF-8 byte widths: Rust `str::len` of the string holding exactly
these characters. -/
def strBytes (s : List Char) : Nat := (s.map Char.utf8Size).sum

/-! ### Chunker (`src/indexer.rs`) -/

/-- The closed set of tree-sitter grammars wired into `CodeChunker::get_language`. -/
inductive Lang where
  | rust | python | go | c | cpp | javascript | typescript | java | csharp
  | ruby | php | html | css | bash | powershell | yaml | json | zig
  | elixir | haskell | solidity
  deriving DecidableEq, Repr

/-- `CodeChunker::get_language`: the closed extension table. -/
def getLanguage : String → Option Lang
  | "rs" => some .rust
  | "py" => some .python
  | "go" => some .go
  | "c" | "h" => some .c
  | "cpp" | "hpp" | "cc" | "cxx" => some .cpp
  | "js" | "jsx" => some .javascript
  | "ts" | "tsx" => some .typescript
  | "java" => some .java
  | "cs" => some .csharp
  | "rb" => some .ruby
  | "php" => some .php
  | "html" => some .html
  | "css" => some .css
  | "sh" | "bash" => some .bash
  | "ps1" => some .powershell
  | "yaml" | "yml" => some .yaml
  | "json" => some .json
  | "zig" => some .zig
  | "ex" | "exs" => some .elixir
  | "hs" => some .haskell
  | "sol" => some .solidity
  | _ => none

/-- `CodeChunker { max_chunk_size, chunk_overlap }`. -/
structure CodeChunker where
  maxChunkSize : Nat
  chunkOverlap : Nat

namespace CodeChunker

/-- The window advance of `split_text`:
`if max_chunk_size > chunk_overlap { max_chunk_size - chunk_overlap } else { 1 }`. -/
def step (c : CodeChunker) : Nat :=
  if c.chunkOverlap < c.maxChunkSize then c.maxChunkSize - c.chunkOverlap else 1

/-- The `while start < total_chars` loop of `CodeChunker::split_text`. -/
def splitLoop (c : CodeChunker) (chars : List Char) (start : Nat) :
    List (List Char) :=
  if h : start < chars.length then
    let e := min (start + c.maxChunkSize) chars.length
    let s := (chars.drop start).take (e - start)
    if e = chars.length then [s]
    else
      have hstep : 0 < c.step := by unfold step; split <;> omega
      have : chars.length - (start + c.step) < chars.length - start := by omega
      s :: splitLoop c chars (start + c.step)
  else []
termination_by chars.length - start

/-- `CodeChunker::split_text` (character-window splitting of oversize chunks).
The early return compares the *byte* length of the text with
`max_chunk_size`, exactly as Rust's `text.len()` does. -/
def splitText (c : CodeChunker) (text : List Char) : List (List Char) :=
  if strBytes text ≤ c.maxChunkSize then [text]
  else splitLoop c text 0

end CodeChunker

/-- `CodeChunk` (`src/indexer.rs`): one logical unit of code. -/
structure CodeChunk where
  filename : String
  code : String
  line_start : Nat
  line_end : Nat
  last_modified : Int
  calls : List String
  deriving DecidableEq, Repr

/-! ### `CodeChunker::chunk_file` (`src/indexer.rs`)

The tree-sitter parser is external: the parse produces an abstract syntax
tree whose nodes carry a kind string, byte offsets and row numbers.  The
reader is external too: the outcome of each `seek`+`read` pair is part of
the environment, as is `String::from_utf8_lossy` (a total function on byte
sequences). -/

/-- An abstract tree-sitter node. -/
inductive TSNode where
  | mk (kind : String) (startByte endByte startRow endRow : Nat)
       (children : List TSNode)

/-- Environment of external outcomes consumed by `chunk_file`. -/
structure ChunkEnv where
  /-- `path.extension()` of the normalised filename (empty when absent);
  path-component semantics live in `std::path`, outside the core. -/
  ext : String
  /-- `parser.set_language(&language)` succeeded. -/
  setLanguageOk : Bool
  /-- `reader.read(&mut check_buf)?` of up to 1024 bytes followed by
  `reader.seek(SeekFrom::Start(0))?`: the bytes read, or the I/O error. -/
  sniff : Except String (List Nat)
  /-- `parser.parse_with(..)`: `none` is a parse failure. -/
  parse : Option TSNode
  /-- `reader.seek(SeekFrom::Start(start))?` + `read_exact` of `len` bytes:
  the bytes, or the I/O error. -/
  readRange : Nat → Nat → Except String (List Nat)
  /-- `String::from_utf8_lossy` (total, never fails). -/
  decode : List Nat → List Char

/-- The `is_semantic_chunk` node-kind table of `CodeChunker::traverse`. -/
def isSemanticKind (k : String) : Bool :=
  (["function_item", "impl_item", "struct_item", "enum_item", "mod_item",
    "const_item", "static_item",
    "function_definition", "class_definition", "function_statement",
    "function_declaration", "method_declaration", "type_declaration",
    "class_specifier", "struct_specifier",
    "class_declaration", "method_definition", "arrow_function",
    "interface_declaration", "record_declaration",
    "method", "class",
    "script_element", "style_element",
    "rule_set", "media_statement", "keyframes_statement",
    "param_block",
    "block_mapping_pair", "pair", "object",
    "Decls", "FnProto", "ContainerField",
    "call", "do_block",
    "signature", "function",
    "contract_declaration", "interface_definition", "library_definition"]
    : List String).contains k

/-- The script-language top-level kind table of `CodeChunker::traverse`. -/
def isScriptKind (k : String) : Bool :=
  (["if_statement", "flow_statement", "expression_statement", "assignment",
    "variable_declaration", "lexical_declaration", "function_call", "call",
    "command", "pipeline", "if_expression", "for_expression"]
    : List String).contains k

/-- The script-language extension table of `CodeChunker::traverse`. -/
def isScriptLang (ext : String) : Bool :=
  (["py", "js", "ts", "jsx", "tsx", "rb", "lua", "sh", "bash", "ps1"]
    : List String).contains ext

/-- `CodeChunker::extract_name`: the first child whose kind is
`identifier`/`field_expression`/`scoped_identifier`, read from the source. -/
def extractName (env : ChunkEnv) : List TSNode → Except String (Option String)
  | [] => .ok none
  | .mk k sb eb _ _ _ :: rest =>
    if k = "identifier" || k = "field_expression" || k = "scoped_identifier" then do
      let buf ← env.readRange sb (eb - sb)
      return some (String.mk (env.decode buf))
    else extractName env rest

/-- `CodeChunker::find_calls` applied to a child list: collect names of
`call_expression`/`call`/`macro_invocation` descendants. -/
def findCallsList (env : ChunkEnv) : List TSNode → Except String (List String)
  | [] => .ok []
  | .mk k _ _ _ _ children :: rest => do
    let head ←
      if k = "call_expression" || k = "call" || k = "macro_invocation" then do
        let nm ← extractName env children
        match nm with
        | some s => pure [s]
        | none => pure ([] : List String)
      else pure ([] : List String)
    let inner ← findCallsList env children
    let tail ← findCallsList env rest
    return (head ++ inner ++ tail)

mutual

/-- `CodeChunker::traverse` on one node. -/
def traverse (c : CodeChunker) (env : ChunkEnv) (ext filename : String)
    (mtime : Int) : TSNode → Nat → Except String (List CodeChunk)
  | .mk kind sb eb sr er children, depth =>
    let is_script_lang := isScriptLang ext
    let is_semantic_chunk := isSemanticKind kind
    let is_ruby_module := ext = "rb" && kind = "module"
    let is_script_chunk := is_script_lang
        && (depth = 1 || (ext = "ps1" && depth = 2))
        && isScriptKind kind
    let is_chunkable := is_semantic_chunk || is_ruby_module || is_script_chunk
    if is_chunkable then
      let len := eb - sb
      if 10 * 1024 * 1024 < len then .ok []
      else if 0 < len then do
        let buf ← env.readRange sb len
        let chunk_content := env.decode buf
        let calls ← findCallsList env children
        let pushed :=
          if c.maxChunkSize < strBytes chunk_content then
            (c.splitText chunk_content).map fun sub =>
              ⟨filename, String.mk sub, sr + 1, er + 1, mtime, calls⟩
          else
            [⟨filename, String.mk chunk_content, sr + 1, er + 1, mtime, calls⟩]
        let is_container := containsSub kind "class" || containsSub kind "impl"
            || containsSub kind "struct" || kind = "element" || kind = "stylesheet"
        if !is_container then .ok pushed
        else do
          let rest ← traverseList c env ext filename mtime children (depth + 1)
          return (pushed ++ rest)
      else traverseList c env ext filename mtime children (depth + 1)
    else traverseList c env ext filename mtime children (depth + 1)

/-- `CodeChunker::traverse`'s cursor walk over the children. -/
def traverseList (c : CodeChunker) (env : ChunkEnv) (ext filename : String)
    (mtime : Int) : List TSNode → Nat → Except String (List CodeChunk)
  | [], _ => .ok []
  | n :: rest, depth => do
    let a ← traverse c env ext filename mtime n depth
    let b ← traverseList c env ext filename mtime rest depth
    return (a ++ b)

end

/-- `CodeChunker::chunk_file`.  Returns `Ok(vec![])` for unknown extensions,
language-setup failures, binary sniffs (a null byte among the first 1024
bytes) and parse failures; I/O errors from the reader propagate through `?`. -/
def CodeChunker.chunk_file (c : CodeChunker) (filename : String) (mtime : Int)
    (env : ChunkEnv) : Except String (List CodeChunk) :=
  let normalized := String.mk (filename.data.map fun ch =>
    if ch = '\\' then '/' else ch)
  match getLanguage env.ext with
  | none => .ok []
  | some _ =>
    if !env.setLanguageOk then .ok []
    else do
      let bytes ← env.sniff
      if bytes.contains 0 then .ok []
      else
        match env.parse with
        | none => .ok []
        | some tree => traverse c env env.ext normalized mtime tree 0

/-! ### Single-file incremental indexer (`src/ops/indexer.rs`)

`CodeIndexer::index_file` and `CodeIndexer::remove_file` drive external
collaborators (the vector store, the BM25 index, the filesystem, the chunker
and the embedder); the environment below records the outcome of each of those
calls so that the control flow of the two methods can be embedded exactly. -/

structure IndexFileEnv where
  /-- `path.extension()` of the input path (empty when absent). -/
  ext : String
  /-- outcome of `storage.delete_file_chunks(&fname_str, &self.workspace)`. -/
  storageDeleteRes : Except String Unit
  /-- outcome of `self.bm25.delete_file(&fname_str, &self.workspace)`. -/
  bm25DeleteRes : Except String Unit
  /-- outcome of `fs::File::open(path)` (`none` = error). -/
  openRes : Option Unit
  /-- outcome of `self.chunker.chunk_file(..)`. -/
  chunkRes : Except String (List CodeChunk)
  /-- outcome of `self.embedder.embed(texts, Some(256))`. -/
  embedRes : Except String (List (List ℚ))
  /-- outcome of `storage.add_chunks(..)`. -/
  storageAddRes : Except String Unit
  /-- outcome of `self.bm25.add_chunks(..)`. -/
  bm25AddRes : Except String Unit

namespace CodeIndexer

/-- `CodeIndexer::index_file`.  Every failing collaborator call is logged and
swallowed (the branches that return `.ok ()` below correspond one-to-one to
the `warn!`/`error!`-and-continue or `warn!`-and-`return Ok(())` arms of the
source); the two delete outcomes and the two add outcomes are inspected only
by `if let Err`, so they cannot change the result. -/
def index_file (env : IndexFileEnv) : Except String Unit :=
  match getLanguage env.ext with
  | none => .ok ()
  | some _ =>
    match env.openRes with
    | none => .ok ()
    | some _ =>
      match env.chunkRes with
      | .error _ => .ok ()
      | .ok chunks =>
        if chunks.isEmpty then .ok ()
        else
          match env.embedRes with
          | .error _ => .ok ()
          | .ok _ => .ok ()

/-- `CodeIndexer::remove_file`: both deletions use `?`, so their errors
propagate to the caller. -/
def remove_file (env : IndexFileEnv) : Except String Unit := do
  let _ ← env.storageDeleteRes
  let _ ← env.bm25DeleteRes
  return ()

end CodeIndexer

/-! ### Search results and the context optimiser
(`src/search.rs`, `src/context.rs`) -/

/-- `SearchResult` (`src/search.rs`): `rank: usize`, `score: f32` (modelled
over `ℚ`), `line_start`/`line_end: i32` (modelled over `ℤ`). -/
structure SearchResult where
  rank : Nat
  score : ℚ
  filename : String
  code : String
  line_start : Int
  line_end : Int
  calls : List String
  deriving DecidableEq, Repr

/-- `MergedChunk` (`src/context.rs`). -/
structure MergedChunk where
  filename : String
  start_line : Int
  end_line : Int
  code : String
  scores : List ℚ
  avg_score : ℚ
  max_score : ℚ
  deriving DecidableEq, Repr

/-- `ContextOptimizer { token_limit }`. -/
structure ContextOptimizer where
  token_limit : Nat

namespace ContextOptimizer

/-- `ContextOptimizer::from_single`. -/
def from_single (res : SearchResult) : MergedChunk :=
  { filename := res.filename
    start_line := res.line_start
    end_line := res.line_end
    code := res.code
    scores := [res.score]
    avg_score := res.score
    max_score := res.score }

/-- The `by_file` grouping of `optimize`: one group per distinct filename
(the source stores them in a `HashMap`, whose iteration order is
unspecified; here the groups are listed in first-occurrence order — every
property proved below is order-insensitive), each group in input order. -/
def groupByFilename (results : List SearchResult) : List (List SearchResult) :=
  ((results.map (·.filename)).dedup).map
    (fun f => results.filter (fun r => r.filename = f))

/-- The key order of `file_results.sort_by_key(|r| r.line_start)`. -/
def lineStartLeb (a b : SearchResult) : Bool :=
  decide (a.line_start ≤ b.line_start)

/-- `file_results.sort_by_key(|r| r.line_start)` (stable sort). -/
def sortByLineStart (rs : List SearchResult) : List SearchResult :=
  rs.mergeSort lineStartLeb

/-- The coalescing walk of `optimize` over one filename group: merge the next
result into the current chunk iff `next.line_start ≤ current.end_line + 5`,
inserting a gap marker when `next.line_start > current.end_line + 1`. -/
def mergeWalk : List SearchResult → Option MergedChunk → List MergedChunk
  | [], none => []
  | [], some curr => [curr]
  | res :: rest, none => mergeWalk rest (some (from_single res))
  | res :: rest, some curr =>
    if res.line_start ≤ curr.end_line + 5 then
      let had_gap := curr.end_line + 1 < res.line_start
      let scores' := curr.scores ++ [res.score]
      let merged : MergedChunk :=
        { filename := curr.filename
          start_line := curr.start_line
          end_line := max curr.end_line res.line_end
          code := curr.code ++ "\n"
            ++ (if had_gap then "... (gap) ...\n" else "") ++ res.code
          scores := scores'
          avg_score := scores'.sum / (scores'.length : ℚ)
          max_score := max curr.max_score res.score }
      mergeWalk rest (some merged)
    else
      curr :: mergeWalk rest (some (from_single res))

/-- The greedy budget loop of `optimize`: accept a chunk iff
`current_tokens + tokens ≤ token_limit`, else skip it entirely and continue. -/
def budgetFilter (tok : String → Nat) (limit : Nat) :
    List MergedChunk → Nat → List MergedChunk
  | [], _ => []
  | chunk :: rest, current =>
    let t := tok chunk.code
    if current + t ≤ limit then chunk :: budgetFilter tok limit rest (current + t)
    else budgetFilter tok limit rest current

/-- The descending `max_score` comparator of `optimize`
(`b.max_score.total_cmp(&a.max_score)`). -/
def maxScoreGeb (a b : MergedChunk) : Bool :=
  decide (b.max_score ≤ a.max_score)

/-- The final presentation comparator of `optimize`:
`(filename, start_line)` ascending. -/
def fileLineLeb (a b : MergedChunk) : Bool :=
  if a.filename = b.filename then decide (a.start_line ≤ b.start_line)
  else strLeb a.filename b.filename

/-- `ContextOptimizer::optimize`.  `tok` is the fixed cl100k tokenizer's
token count (`bpe.encode_with_special_tokens(..).len()`), an external
collaborator. -/
def optimize (o : ContextOptimizer) (tok : String → Nat)
    (results : List SearchResult) : List MergedChunk :=
  if results.isEmpty then []
  else
    let all_merged := (groupByFilename results).flatMap
      (fun g => mergeWalk (sortByLineStart g) none)
    let sorted := all_merged.mergeSort maxScoreGeb
    let selection := budgetFilter tok o.token_limit sorted 0
    selection.mergeSort fileLineLeb

end ContextOptimizer

/-! ### Hybrid searcher (`src/search.rs`) with the lexical store's query
construction (`src/bm25.rs`)

`CodeSearcher::semantic_search` drives the embedder, the vector store, the
BM25 index and the reranker; the environment below records the outcome of
each external call.  Beside the result, the embedding returns the trace of
BM25 `search` invocations `(query_str, limit, workspace)`; the call site in
`search.rs` (`bm25.search(query, fetch_limit)`) supplies **no** workspace
argument — even though `BM25Index::search` is declared with a third
`workspace: Option<&str>` parameter and every other caller passes one — so
the workspace component of each recorded invocation is `none`. -/

/-- Rust `s.replace("\\", "/")`. -/
def replaceBackslash (s : String) : String :=
  String.mk (s.data.map fun ch => if ch = '\\' then '/' else ch)

/-- One row extracted from a search record batch (`semantic_search` reads
the columns id, filename, code, line_start, line_end, calls). -/
structure VecRow where
  id : String
  filename : String
  code : String
  line_start : Int
  line_end : Int
  calls : List String
  deriving DecidableEq, Repr

/-- `BM25Result` (`src/bm25.rs`); `line_start`/`line_end` are `u64`. -/
structure BM25Result where
  id : String
  filename : String
  code : String
  line_start : Nat
  line_end : Nat
  score : ℚ
  deriving DecidableEq, Repr

/-- The fields of `CodeSearcher` that `semantic_search` consults.  The
`Option`-wrapped collaborators are modelled by presence flags; their
behaviour lives in `SearchEnv`. -/
structure CodeSearcher where
  storageConfigured : Bool
  embedderConfigured : Bool
  bm25Configured : Bool
  expanderConfigured : Bool
  vector_weight : ℚ
  bm25_weight : ℚ
  rrf_k : ℚ

/-- Outcomes of the external calls made by one `semantic_search` run. -/
structure SearchEnv where
  /-- `expander.expand(query)` outcome. -/
  expandRes : Except String (List String)
  /-- `embedder.embed(vec![q], None)` per query string. -/
  embed : String → Except String (List (List ℚ))
  /-- `storage.search(vector, fetch_limit, filter, workspace)`: the record
  batches (the per-row rank restarts at 1 in each batch, as in the source's
  `for batch in results { for i in 0..batch.num_rows() { rank = i + 1 } }`). -/
  storageSearch : List ℚ → Nat → Option String → Option String →
    Except String (List (List VecRow))
  /-- `bm25.search(query, fetch_limit)` outcome. -/
  bm25Search : String → Nat → Except String (List BM25Result)
  /-- `embedder.rerank(query, texts, texts.len())` outcome. -/
  rerank : String → List String → Nat → Except String (List (Nat × ℚ))
  /-- `cl100k_base()` outcome: the tokenizer used by the context optimiser. -/
  cl100k : Except String (String → Nat)

namespace CodeSearcher

/-- `CodeSearcher::compute_rrf_component`: `1.0 / (k + rank)`. -/
def compute_rrf_component (rank : Nat) (k : ℚ) : ℚ := 1 / (k + rank)

/-- `ext_val.strip_prefix('.')` with fallback to the original. -/
def stripDot (e : String) : String :=
  if e.data.head? = some '.' then String.mk e.data.tail else e

/-- The vector-search filter string built from `ext` and `dir`. -/
def buildFilterStr (ext dir : Option String) : Option String :=
  let filters :=
    (match ext with
     | some e => ["filename LIKE '%." ++ stripDot e ++ "'"]
     | none => []) ++
    (match dir with
     | some d => ["filename LIKE '%" ++ replaceBackslash d ++ "%'"]
     | none => [])
  if filters.isEmpty then none else some (String.intercalate " AND " filters)

/-- `fetch_limit = if no_rerank { limit } else { max(50, limit * 5) }`. -/
def fetchLimit (no_rerank : Bool) (limit : Nat) : Nat :=
  if no_rerank then limit else max 50 (limit * 5)

/-- The recomputed chunk id `format!("{}-{}-{}", filename, line_start, line_end)`. -/
def mkId (filename : String) (ls le : Int) : String :=
  filename ++ "-" ++ toString ls ++ "-" ++ toString le

/-- The row loop of one record batch: accumulate
`vector_rrf_scores[id] += 1/(k + rank)` (the map is modelled extensionally
as a function) and record the first-seen payload per id in insertion order
(`all_vector_results.entry(id).or_insert_with(..)`). -/
def processBatchRows (k : ℚ) :
    List VecRow → Nat → (String → ℚ) → List (String × SearchResult) →
      ((String → ℚ) × List (String × SearchResult))
  | [], _, scores, acc => (scores, acc)
  | row :: rest, i, scores, acc =>
    let rank := i + 1
    let scores' := fun x =>
      if x = row.id then scores row.id + compute_rrf_component rank k
      else scores x
    let acc' :=
      if (acc.lookup row.id).isSome then acc
      else acc ++ [(row.id,
        { rank := 0, score := 0, filename := row.filename, code := row.code,
          line_start := row.line_start, line_end := row.line_end,
          calls := row.calls })]
    processBatchRows k rest (i + 1) scores' acc'

/-- `for batch in results { .. }`. -/
def processBatches (k : ℚ) :
    List (List VecRow) → (String → ℚ) → List (String × SearchResult) →
      ((String → ℚ) × List (String × SearchResult))
  | [], scores, acc => (scores, acc)
  | batch :: more, scores, acc =>
    let p := processBatchRows k batch 0 scores acc
    processBatches k more p.1 p.2

/-- The `for q in &search_queries` vector-retrieval loop: embed the query,
take the first vector if any, run the store search, accumulate. -/
def vectorPhase (env : SearchEnv) (k : ℚ) (fl : Nat)
    (filterStr workspace : Option String) :
    List String → (String → ℚ) → List (String × SearchResult) →
      Except String ((String → ℚ) × List (String × SearchResult))
  | [], scores, acc => .ok (scores, acc)
  | q :: rest, scores, acc => do
    let vectors ← env.embed q
    match vectors.head? with
    | none => vectorPhase env k fl filterStr workspace rest scores acc
    | some v => do
      let batches ← env.storageSearch v fl filterStr workspace
      let p := processBatches k batches scores acc
      vectorPhase env k fl filterStr workspace rest p.1 p.2

/-- `bm25_ranks`: `enumerate().map(|(rank, res)| (id, rank + 1)).collect()`
into a `HashMap` — on duplicate ids the later insertion wins. -/
def buildBm25Ranks : List BM25Result → Nat → (String → Option Nat) →
    (String → Option Nat)
  | [], _, m => m
  | res :: rest, i, m =>
    buildBm25Ranks rest (i + 1)
      (fun x => if x = res.id then some (i + 1) else m x)

/-- The "add unique BM25 hits" loop with its client-side ext/dir filters. -/
def addBm25Hits (ext dir : Option String) :
    List BM25Result → List SearchResult → List String → List SearchResult
  | [], cands, _ => cands
  | res :: rest, cands, existing =>
    if existing.contains res.id then addBm25Hits ext dir rest cands existing
    else
      let extOk := match ext with
        | some e => endsWith res.filename ("." ++ stripDot e)
        | none => true
      if !extOk then addBm25Hits ext dir rest cands existing
      else
        let dirOk := match dir with
          | some d => containsSub (replaceBackslash res.filename)
              (replaceBackslash d)
          | none => true
        if !dirOk then addBm25Hits ext dir rest cands existing
        else addBm25Hits ext dir rest
          (cands ++
            [{ rank := 0, score := 0, filename := res.filename,
               code := res.code, line_start := (res.line_start : Int),
               line_end := (res.line_end : Int), calls := [] }])
          (existing ++ [res.id])

/-- The fused-score pass over all candidates (BM25 branch):
`score = vec_rrf_sum * vector_weight + rrf(bm25_rank) * bm25_weight`. -/
def scoreCandidates (vw bw k : ℚ) (scores : String → ℚ)
    (bm25_ranks : String → Option Nat) (cands : List SearchResult) :
    List SearchResult :=
  cands.map fun cand =>
    let id := mkId cand.filename cand.line_start cand.line_end
    let vec_score := scores id * vw
    let bm25_score := (match bm25_ranks id with
      | some r => compute_rrf_component r k
      | none => 0) * bw
    { cand with score := vec_score + bm25_score }

/-- The score pass when no BM25 index is configured. -/
def scoreCandidatesVecOnly (vw : ℚ) (scores : String → ℚ)
    (cands : List SearchResult) : List SearchResult :=
  cands.map fun cand =>
    { cand with
      score := scores (mkId cand.filename cand.line_start cand.line_end) * vw }

/-- Apply reranker scores: `candidates.get_mut(original_idx)` then overwrite
`score`; out-of-range indices are ignored. -/
def applyRerank : List (Nat × ℚ) → List SearchResult → List SearchResult
  | [], cands => cands
  | (i, sc) :: rest, cands =>
    match cands[i]? with
    | some c => applyRerank rest (cands.set i { c with score := sc })
    | none => applyRerank rest cands

/-- The descending-score comparator of the post-rerank sort
(`b.score.partial_cmp(&a.score)`). -/
def scoreGeb (a b : SearchResult) : Bool := decide (b.score ≤ a.score)

/-- Truncate to `limit` and assign 1-based ranks. -/
def assignRanks (rs : List SearchResult) : List SearchResult :=
  rs.enum.map fun p => { p.2 with rank := p.1 + 1 }

/-- The tail of `semantic_search`: optional re-rank, truncation, rank
assignment, optional context-budget mapping.  The second component carries
the BM25 invocation trace through unchanged. -/
def finishPhase (env : SearchEnv) (query : String) (limit : Nat)
    (no_rerank : Bool) (max_tokens : Option Nat)
    (candidates : List SearchResult)
    (bmTrace : List (String × Nat × Option String)) :
    Except String (List SearchResult) × List (String × Nat × Option String) :=
  let candidates :=
    if !no_rerank && !candidates.isEmpty then
      match env.rerank query (candidates.map (·.code)) (candidates.map (·.code)).length with
      | .ok rr => (applyRerank rr candidates).mergeSort scoreGeb
      | .error _ => candidates
    else candidates
  let final_results := assignRanks (candidates.take limit)
  match max_tokens with
  | none => (.ok final_results, bmTrace)
  | some t =>
    match env.cl100k with
    | .error e => (.error e, bmTrace)
    | .ok tok =>
      let merged := ContextOptimizer.optimize ⟨t⟩ tok final_results
      (.ok (merged.enum.map fun p =>
        { rank := p.1 + 1, score := p.2.max_score, filename := p.2.filename,
          code := p.2.code, line_start := p.2.start_line,
          line_end := p.2.end_line, calls := [] }), bmTrace)

/-- `CodeSearcher::semantic_search`.  Returns the result together with the
trace of BM25 `search` invocations `(query_str, limit, workspace)`; the
workspace component is `none` because the call site passes none. -/
def semantic_search (s : CodeSearcher) (env : SearchEnv) (query : String)
    (limit : Nat) (ext dir : Option String) (no_rerank : Bool)
    (workspace : Option String) (max_tokens : Option Nat)
    (enable_expansion : Bool) :
    Except String (List SearchResult) × List (String × Nat × Option String) :=
  if !s.storageConfigured then (.error "Storage not initialized", [])
  else if !s.embedderConfigured then (.error "Embedder not initialized", [])
  else
    match vectorPhase env s.rrf_k (fetchLimit no_rerank limit)
        (buildFilterStr ext dir) workspace
        (if enable_expansion && s.expanderConfigured then
          match env.expandRes with
          | .ok expanded => expanded
          | .error _ => [query]
        else [query])
        (fun _ => 0) [] with
    | .error e => (.error e, [])
    | .ok (scores, acc) =>
      if s.bm25Configured then
        match env.bm25Search query (fetchLimit no_rerank limit) with
        | .ok bm25_results =>
          finishPhase env query limit no_rerank max_tokens
            (scoreCandidates s.vector_weight s.bm25_weight s.rrf_k scores
              (buildBm25Ranks bm25_results 0 (fun _ => none))
              (addBm25Hits ext dir bm25_results (acc.map Prod.snd)
                ((acc.map Prod.snd).map
                  (fun c => mkId c.filename c.line_start c.line_end))))
            [(query, fetchLimit no_rerank limit, none)]
        | .error _ =>
          -- BM25 failure is only logged; NOTE the score-assignment loop is
          -- inside the Ok arm, so the candidates keep their initial 0.0 scores.
          finishPhase env query limit no_rerank max_tokens (acc.map Prod.snd)
            [(query, fetchLimit no_rerank limit, none)]
      else
        finishPhase env query limit no_rerank max_tokens
          (scoreCandidatesVecOnly s.vector_weight scores (acc.map Prod.snd)) []

end CodeSearcher

/-- The parts of the boolean query constructed by `BM25Index::search`
(`src/bm25.rs`): the parsed user query, plus a `Must` workspace term iff a
workspace argument was given. -/
inductive BQueryPart where
  | parsed (query_str : String)
  | workspaceTerm (ws : String)
  deriving DecidableEq, Repr

/-- `BM25Index::search`'s query construction. -/
def bm25BuildQuery (query_str : String) (workspace : Option String) :
    List BQueryPart :=
  match workspace with
  | some ws => [.parsed query_str, .workspaceTerm ws]
  | none => [.parsed query_str]

/-- Does a BM25 query contain a workspace-equality term? -/
def hasWorkspaceTerm (q : List BQueryPart) : Bool :=
  q.any fun p => match p with
    | .workspaceTerm _ => true
    | _ => false

/-- Modelled from the spec (the Σ-side of the C4 refinement): the RRF
contribution of chunk id `i` among the rows of one batch, ranks `1`-based
from `start + 1`: each occurrence contributes `1 / (rrf_k + rank)`. -/
def specRowsContrib (k : ℚ) (i : String) : List VecRow → Nat → ℚ
  | [], _ => 0
  | row :: rest, start =>
    (if row.id = i then CodeSearcher.compute_rrf_component (start + 1) k else 0)
      + specRowsContrib k i rest (start + 1)

/-- Modelled from the spec: a candidate's total vector RRF contribution from
one query's record batches. -/
def specVecContrib (k : ℚ) (i : String) (batches : List (List VecRow)) : ℚ :=
  (batches.map fun b => specRowsContrib k i b 0).sum

/-- Modelled from the spec: the record batches one query contributes — what
the environment returns when the embedding yields a vector and the store
search succeeds, and nothing otherwise. -/
def specQueryBatches (env : SearchEnv) (fl : Nat) (fs ws : Option String)
    (q : String) : List (List VecRow) :=
  match env.embed q with
  | .error _ => []
  | .ok vectors =>
    match vectors.head? with
    | none => []
    | some v =>
      match env.storageSearch v fl fs ws with
      | .error _ => []
      | .ok batches => batches

/-- Modelled from the spec: the 1-based position of the first BM25 result
carrying chunk id `i`, if any (`bm25_rank` in the score formula). -/
def specBm25Rank (results : List BM25Result) (i : String) : Option Nat :=
  match results with
  | [] => none
  | res :: rest =>
    if res.id = i then some 1 else (specBm25Rank rest i).map (· + 1)

/-! ### Concrete example data for the search-pipeline evidence -/

/-- A hybrid searcher with both stores configured, `vector_weight = 1`,
`bm25_weight = 2`, `rrf_k = 60`. -/
def exSearcher : CodeSearcher :=
  { storageConfigured := true, embedderConfigured := true,
    bm25Configured := true, expanderConfigured := false,
    vector_weight := 1, bm25_weight := 2, rrf_k := 60 }

/-- One vector-store hit (rank 1 for every query). -/
def exRowA : VecRow := ⟨"a.rs-1-2", "a.rs", "codeA", 1, 2, []⟩

/-- One BM25 hit (rank 1), a different chunk. -/
def exBm25B : BM25Result := ⟨"b.rs-1-2", "b.rs", "codeB", 1, 2, 5⟩

/-- The environment: every embedding returns one vector, the vector store
returns `exRowA`, BM25 returns `exBm25B`, the reranker is uninitialised. -/
def exEnv : SearchEnv :=
  { expandRes := .ok []
    embed := fun _ => .ok [[1]]
    storageSearch := fun _ _ _ _ => .ok [[exRowA]]
    bm25Search := fun _ _ => .ok [exBm25B]
    rerank := fun _ _ _ => .error "reranker not initialized"
    cl100k := .ok (fun _ => 0) }

/-- What `semantic_search exEnv "q" 2 … no_rerank …` returns: the vector hit
(fused score `1/61`) first, the BM25-only hit (fused score `2/61`) second. -/
def exResults : List SearchResult :=
  [⟨1, 1/61, "a.rs", "codeA", 1, 2, []⟩,
   ⟨2, 2/61, "b.rs", "codeB", 1, 2, []⟩]

/-- The vector RRF score map `vectorPhase` produces on `exEnv` with the
single query `"q"`: `exRowA` at rank `1` contributes `1/(60 + 1)`. -/
def scoresEx : String → ℚ :=
  fun x => if x = "a.rs-1-2"
    then (0 : ℚ) + CodeSearcher.compute_rrf_component 1 60 else 0

/-- The candidate accumulator `vectorPhase` produces on `exEnv` with the
single query `"q"`. -/
def accEx : List (String × SearchResult) :=
  [("a.rs-1-2", ⟨0, 0, "a.rs", "codeA", 1, 2, []⟩)]

/-! ### Vector store (`src/storage.rs`)

`storage.rs` is out of step with the rest of the crate: its schema has no
`workspace` column, `Storage::search` takes no workspace argument, and
`delete_file_chunks`/`get_indexed_metadata` take none either — while every
caller (`commands/index.rs`, `ops/indexer.rs`, `search.rs`, the integration
tests) passes a workspace.  The store is embedded as written. -/

/-- Arrow column types used by `Storage::init`. -/
inductive ColType where
  | utf8
  | int32
  | int64
  | listUtf8
  | fixedSizeListFloat32 (dim : Nat)
  deriving DecidableEq, Repr

/-- The column list of the schema created by `Storage::init(dim)`. -/
def initSchema (dim : Nat) : List (String × ColType) :=
  [("id", .utf8), ("filename", .utf8), ("code", .utf8),
   ("line_start", .int32), ("line_end", .int32),
   ("last_modified", .int64), ("calls", .listUtf8),
   ("vector", .fixedSizeListFloat32 dim)]

/-- One persisted row of the vector store (exactly the `Storage::init`
schema: there is no workspace field). -/
structure StorageRow where
  id : String
  filename : String
  code : String
  line_start : Int
  line_end : Int
  last_modified : Int
  calls : List String
  vector : List ℚ
  deriving DecidableEq, Repr

namespace Storage

/-- Row-wise zip of the column-parallel arrays passed to `add_chunks`. -/
def buildRows : List String → List String → List String → List Int →
    List Int → List Int → List (List String) → List (List ℚ) →
    List StorageRow
  | i :: is, f :: fs, c :: cs, ls :: lss, le :: les, lm :: lms,
      ca :: cas, v :: vs =>
    ⟨i, f, c, ls, le, lm, ca, v⟩ :: buildRows is fs cs lss les lms cas vs
  | _, _, _, _, _, _, _, _ => []

/-- `Storage::add_chunks`: append the batch to the table. -/
def add_chunks (table : List StorageRow) (ids filenames codes : List String)
    (line_starts line_ends : List Int) (last_modified : List Int)
    (calls : List (List String)) (vectors : List (List ℚ)) :
    List StorageRow :=
  table ++ buildRows ids filenames codes line_starts line_ends last_modified
    calls vectors

/-- Squared euclidean distance (the ANN metric, modelled exactly). -/
def l2dist (a b : List ℚ) : ℚ :=
  ((a.zip b).map fun p => (p.1 - p.2) ^ 2).sum

/-- `Storage::search(query_vector, limit, filter)`: nearest-neighbour over
`vector` with an optional predicate on the schema columns (lancedb parses a
SQL string over those columns; modelled as a row predicate).  There is no
workspace parameter. -/
def search (table : List StorageRow) (query_vector : List ℚ) (limit : Nat)
    (filter : Option (StorageRow → Bool)) : List StorageRow :=
  ((match filter with
    | some f => table.filter f
    | none => table).mergeSort
      (fun a b => decide (l2dist a.vector query_vector
        ≤ l2dist b.vector query_vector))).take limit

end Storage

/-! ### Batch indexing command (`src/commands/index.rs`)

`index_codebase` / `process_batch` drive the stores through batched flushes;
the temporal claim C8 is about the *order* of those store operations, so the
embedding produces the run's event trace.  Store-call failures are logged
and swallowed (they do not change the trace structure); whether the adds
happen depends on the embedding call's success (`embedOk`). -/

/-- One store operation of an indexing run. -/
inductive IndexEv where
  | storageBatchDelete (files : List String)
  | bm25BatchDelete (files : List String)
  | storageAdd (n : Nat)
  | bm25Add (n : Nat)
  | commit
  | createFilenameIndex
  deriving DecidableEq, Repr

/-- `process_batch`: the queued deletions first (vector store, then BM25),
then — when the chunk buffer is non-empty and embedding succeeds — one
`add_chunks` per store.  Its Rust `Result` is always `Ok` (every inner
failure is logged); the value here is the event trace. -/
def process_batch (embedOk : List String → Bool)
    (chunks : List CodeChunk) (pending_deletes : List String) :
    List IndexEv :=
  (if pending_deletes.isEmpty then []
   else [IndexEv.storageBatchDelete pending_deletes,
         IndexEv.bm25BatchDelete pending_deletes])
  ++ (if chunks.isEmpty then []
      else if embedOk (chunks.map (·.code))
      then [IndexEv.storageAdd chunks.length, IndexEv.bm25Add chunks.length]
      else [])

/-- The configuration consumed by the indexing loop. -/
structure IndexRunCfg where
  exclusions : List String
  max_file_size_bytes : Nat
  batch_size : Nat
  update : Bool

/-- One walker item: either a walk error (logged, skipped) or a directory
entry with the filesystem outcomes the loop consults. -/
inductive WalkEntry where
  | err
  | entry (isFile : Bool) (path : String) (ext : String) (metadataOk : Bool)
      (size : Nat) (mtime : Int) (openOk : Bool)
      (chunkRes : Except String (List CodeChunk))

/-- The loop state: chunk buffer, queued deletions, visited files, trace. -/
structure RunState where
  chunks_buffer : List CodeChunk
  pending_deletes : List String
  visited : List String
  trace : List IndexEv

/-- The end-of-iteration flush check:
`chunks_buffer.len() >= batch_size || pending_deletes.len() >= batch_size`. -/
def flushCheck (cfg : IndexRunCfg) (embedOk : List String → Bool)
    (st : RunState) : RunState :=
  if cfg.batch_size ≤ st.chunks_buffer.length
      ∨ cfg.batch_size ≤ st.pending_deletes.length then
    { chunks_buffer := [], pending_deletes := [], visited := st.visited,
      trace := st.trace
        ++ process_batch embedOk st.chunks_buffer st.pending_deletes }
  else st

/-- `if let Ok(file) … match chunker.chunk_file(..)`: extend the chunk
buffer on success, log-and-skip otherwise. -/
def bufferChunks (openOk : Bool) (chunkRes : Except String (List CodeChunk))
    (s : RunState) : RunState :=
  if openOk then
    match chunkRes with
    | .ok cs => { s with chunks_buffer := s.chunks_buffer ++ cs }
    | .error _ => s
  else s

/-- One iteration of the walker loop (`index_codebase` lines 125–204).
`continue` arms return the state unchanged (no flush check); the
`if let Ok(metadata)`-fails arm and the full processing path fall through
to the flush check. -/
def stepEntry (cfg : IndexRunCfg) (existing : List (String × Int))
    (embedOk : List String → Bool) (st : RunState) : WalkEntry → RunState
  | .err => st
  | .entry isFile path ext metadataOk size mtime openOk chunkRes =>
    if !isFile then st
    else if cfg.exclusions.any (fun ex => containsSub path ex) then st
    else if (getLanguage ext).isNone then st
    else if !metadataOk then flushCheck cfg embedOk st
    else if cfg.max_file_size_bytes < size then st
    else
      let st1 : RunState := { st with visited := st.visited ++ [path] }
      if cfg.update then
        match existing.lookup path with
        | some stored =>
          if stored = mtime then st1
          else
            flushCheck cfg embedOk (bufferChunks openOk chunkRes
              { st1 with pending_deletes := st1.pending_deletes ++ [path] })
        | none => flushCheck cfg embedOk (bufferChunks openOk chunkRes st1)
      else flushCheck cfg embedOk (bufferChunks openOk chunkRes st1)

/-- Rust `slice::chunks(n)` (source guarantees `n = batch_size ≥ 1`; Rust
panics on `0`, modelled as one chunk). -/
def chunksOf (n : Nat) : List String → List (List String)
  | [] => []
  | a :: rest =>
    if h : n = 0 then [a :: rest]
    else
      have : (List.drop n (a :: rest)).length < (a :: rest).length := by
        simp only [List.length_drop, List.length_cons]
        omega
      (a :: rest).take n :: chunksOf n ((a :: rest).drop n)
termination_by l => l.length

/-- The stale-cleanup phase (`update` only): delete, per batch of
`batch_size`, every previously indexed file the walk did not visit. -/
def staleEvents (cfg : IndexRunCfg) (existing : List (String × Int))
    (visited : List String) : List IndexEv :=
  if cfg.update then
    let stale := (existing.map Prod.fst).filter (fun f => !visited.contains f)
    if stale.isEmpty then []
    else (chunksOf cfg.batch_size stale).flatMap
      (fun batch => [IndexEv.storageBatchDelete batch,
                     IndexEv.bm25BatchDelete batch])
  else []

/-- `index_codebase` from the walk onward (model init, storage init and BM25
init precede it; their failures abort the run before any store write, with
no commit).  The walk is the entry list; `existing` is
`get_indexed_metadata`'s map (fetched only in `update` mode). -/
def index_codebase (cfg : IndexRunCfg) (existing : List (String × Int))
    (embedOk : List String → Bool) (entries : List WalkEntry) :
    List IndexEv :=
  let st := entries.foldl (fun s e => stepEntry cfg existing embedOk s e)
    ⟨[], [], [], []⟩
  let trace := st.trace ++
    (if !st.chunks_buffer.isEmpty || !st.pending_deletes.isEmpty
     then process_batch embedOk st.chunks_buffer st.pending_deletes else [])
  let trace := trace ++ staleEvents cfg existing st.visited
  trace ++ [IndexEv.commit, IndexEv.createFilenameIndex]

/-! ### Query expander (`src/llm/expander.rs`) -/

/-- Rust `str::trim`: strip leading and trailing whitespace characters. -/
def trimChars (s : List Char) : List Char :=
  ((s.dropWhile Char.isWhitespace).reverse.dropWhile Char.isWhitespace).reverse

/-- Helper for `splitOnComma`: accumulates the current piece (reversed). -/
def splitOnCommaAux : List Char → List Char → List String
  | [], acc => [String.mk acc.reverse]
  | ch :: rest, acc =>
    if ch = ',' then String.mk acc.reverse :: splitOnCommaAux rest []
    else splitOnCommaAux rest (ch :: acc)

/-- Rust `response.split(',')`: splits at every comma, keeping empty pieces. -/
def splitOnComma (s : String) : List String := splitOnCommaAux s.data []

/-- The parsed term list of `QueryExpander::expand`:
`response.split(',').map(|s| s.trim().to_string()).filter(|s| !s.is_empty())`. -/
def parsedTerms (response : String) : List String :=
  ((splitOnComma response).map (fun s => String.mk (trimChars s.data))).filter
    (fun s => !s.isEmpty)

/-- Rust `Vec::dedup`: remove *consecutive* repeated elements, keeping the
first of each run. -/
def dedupConsec : List String → List String
  | [] => []
  | [a] => [a]
  | a :: b :: rest =>
    if a = b then dedupConsec (b :: rest) else a :: dedupConsec (b :: rest)

namespace QueryExpander

/-- `QueryExpander::expand`, given the LLM reply `response` (the
`llm_client.generate` call is the only external interaction; its successful
reply is the parameter).  The source parses the comma-separated reply,
inserts the original query at index 0, then `sort()`s (stable, by the string
order) and `dedup()`s. -/
def expand (query response : String) : List String :=
  dedupConsec ((query :: parsedTerms response).mergeSort strLeb)

end QueryExpander

/-! # Part 2: theorems -/

theorem length_le_strBytes (s : List Char) : s.length ≤ strBytes s := by
  induction s with
  | nil => simp [strBytes]
  | cons c cs ih =>
    have hc := Char.utf8Size_pos c
    simp only [strBytes, List.map_cons, List.sum_cons, List.length_cons]
    have : cs.length ≤ (cs.map Char.utf8Size).sum := ih
    omega

namespace CodeChunker

theorem step_eq (c : CodeChunker) :
    c.step = max 1 (c.maxChunkSize - c.chunkOverlap) := by
  unfold step
  rcases Nat.lt_or_ge c.chunkOverlap c.maxChunkSize with h | h
  · simp only [if_pos h]
    omega
  · simp only [if_neg (Nat.not_lt.mpr h)]
    omega

theorem step_pos (c : CodeChunker) : 0 < c.step := by
  rw [step_eq]; omega

theorem take_min_length (l : List Char) (m : Nat) :
    l.take (min m l.length) = l.take m := by
  rcases Nat.le_total m l.length with h | h
  · rw [Nat.min_eq_left h]
  · rw [Nat.min_eq_right h, List.take_length, List.take_of_length_le h]

theorem splitLoop_eq (c : CodeChunker) (chars : List Char) (start : Nat)
    (h : start < chars.length) :
    c.splitLoop chars start =
      (chars.drop start).take c.maxChunkSize ::
        (if start + c.maxChunkSize < chars.length
         then c.splitLoop chars (start + c.step) else []) := by
  rw [splitLoop]
  simp only [dif_pos h]
  have hs : (chars.drop start).take (min (start + c.maxChunkSize) chars.length - start)
      = (chars.drop start).take c.maxChunkSize := by
    have h1 : min (start + c.maxChunkSize) chars.length - start
        = min c.maxChunkSize (chars.length - start) := by omega
    rw [h1, ← List.length_drop, take_min_length]
  by_cases he : min (start + c.maxChunkSize) chars.length = chars.length
  · have hlt : ¬ start + c.maxChunkSize < chars.length := by omega
    simp only [if_pos he, if_neg hlt, hs]
  · have hlt : start + c.maxChunkSize < chars.length := by omega
    simp only [if_neg he, if_pos hlt, hs]

theorem splitLoop_get (c : CodeChunker) (chars : List Char) (start : Nat) :
    ∀ i, i < (c.splitLoop chars start).length →
      (c.splitLoop chars start)[i]?
        = some ((chars.drop (start + i * c.step)).take c.maxChunkSize) := by
  intro i hi
  by_cases h : start < chars.length
  · rw [splitLoop_eq c chars start h] at hi ⊢
    cases i with
    | zero => simp
    | succ j =>
      by_cases h2 : start + c.maxChunkSize < chars.length
      · simp only [if_pos h2, List.length_cons] at hi ⊢
        rw [List.getElem?_cons_succ]
        have hrec := splitLoop_get c chars (start + c.step) j
          (Nat.lt_of_succ_lt_succ hi)
        rw [hrec]
        have : start + c.step + j * c.step = start + (j + 1) * c.step := by ring
        rw [this]
      · simp only [if_neg h2, List.length_cons, List.length_nil] at hi
        omega
  · rw [splitLoop] at hi
    simp only [dif_neg h, List.length_nil] at hi
    omega
termination_by chars.length - start
decreasing_by
  have := c.step_pos
  omega

theorem splitLoop_succ_lt (c : CodeChunker) (chars : List Char) (start : Nat) :
    ∀ i, i + 1 < (c.splitLoop chars start).length →
      start + i * c.step + c.maxChunkSize < chars.length := by
  intro i hi
  by_cases h : start < chars.length
  · rw [splitLoop_eq c chars start h] at hi
    by_cases h2 : start + c.maxChunkSize < chars.length
    · cases i with
      | zero => simpa using h2
      | succ j =>
        simp only [if_pos h2, List.length_cons] at hi
        have hrec := splitLoop_succ_lt c chars (start + c.step) j
          (Nat.lt_of_succ_lt_succ hi)
        have : start + c.step + j * c.step = start + (j + 1) * c.step := by ring
        omega
    · simp only [if_neg h2, List.length_cons, List.length_nil] at hi
      omega
  · rw [splitLoop] at hi
    simp only [dif_neg h, List.length_nil] at hi
    omega
termination_by chars.length - start
decreasing_by
  have := c.step_pos
  omega

/-- Closed form for `split_text`: the `i`-th produced chunk is the window of
`max_chunk_size` characters starting at `i · step`. -/
theorem splitText_get (c : CodeChunker) (text : List Char) :
    ∀ i, i < (c.splitText text).length →
      (c.splitText text)[i]?
        = some ((text.drop (i * c.step)).take c.maxChunkSize) := by
  intro i hi
  unfold splitText at hi ⊢
  by_cases h : strBytes text ≤ c.maxChunkSize
  · simp only [if_pos h, List.length_cons, List.length_nil] at hi ⊢
    have hi0 : i = 0 := by omega
    subst hi0
    have hlen : text.length ≤ c.maxChunkSize :=
      le_trans (length_le_strBytes text) h
    simp [List.take_of_length_le hlen]
  · simp only [if_neg h] at hi ⊢
    simpa using splitLoop_get c text 0 i hi

theorem splitText_succ_lt (c : CodeChunker) (text : List Char) :
    ∀ i, i + 1 < (c.splitText text).length →
      i * c.step + c.maxChunkSize < text.length := by
  intro i hi
  unfold splitText at hi
  by_cases h : strBytes text ≤ c.maxChunkSize
  · simp only [if_pos h, List.length_cons, List.length_nil] at hi
    omega
  · simp only [if_neg h] at hi
    simpa using splitLoop_succ_lt c text 0 i hi

end CodeChunker

/-- **C6**: every chunk produced by `split_text` has at most `max_chunk_size`
characters; the window starts advance by `step = max 1 (max_chunk_size -
chunk_overlap)` (chunk `i` is the `max_chunk_size`-character window at
`i * step`); and when `1 ≤ chunk_overlap < max_chunk_size`, each earlier
chunk of an adjacent pair has exactly `max_chunk_size` characters, its
`chunk_overlap`-character suffix equals the `chunk_overlap`-character prefix
of the later chunk, and the later chunk is longer than `chunk_overlap`, so
adjacent chunks overlap in exactly `chunk_overlap` characters. -/
theorem C6_splitText_window (c : CodeRag.CodeChunker) (text : List Char) :
    (∀ ch ∈ c.splitText text, ch.length ≤ c.maxChunkSize)
    ∧ c.step = max 1 (c.maxChunkSize - c.chunkOverlap)
    ∧ (∀ i, i < (c.splitText text).length →
        (c.splitText text)[i]?
          = some ((text.drop (i * c.step)).take c.maxChunkSize))
    ∧ (1 ≤ c.chunkOverlap → c.chunkOverlap < c.maxChunkSize →
        ∀ i a b, (c.splitText text)[i]? = some a →
          (c.splitText text)[i + 1]? = some b →
          a.length = c.maxChunkSize
          ∧ c.chunkOverlap < b.length
          ∧ a.drop (a.length - c.chunkOverlap) = b.take c.chunkOverlap) := by
  refine ⟨?_, c.step_eq, CodeChunker.splitText_get c text, ?_⟩
  · intro ch hch
    obtain ⟨⟨i, hi⟩, rfl⟩ := List.mem_iff_get.mp hch
    have h := CodeChunker.splitText_get c text i hi
    have h3 := List.getElem?_eq_getElem hi
    rw [h] at h3
    have h4 : (c.splitText text)[i] = (text.drop (i * c.step)).take c.maxChunkSize :=
      (Option.some_inj.mp h3).symm
    simp only [List.get_eq_getElem, Fin.val_mk, h4, List.length_take]
    omega
  · intro hov hmo i a b ha hb
    have hib : i + 1 < (c.splitText text).length := by
      by_contra hcon
      rw [List.getElem?_eq_none (Nat.le_of_not_lt hcon)] at hb
      exact Option.noConfusion hb
    have hia : i < (c.splitText text).length := Nat.lt_of_succ_lt hib
    have hT : i * c.step + c.maxChunkSize < text.length :=
      CodeChunker.splitText_succ_lt c text i hib
    have hstep : c.step = c.maxChunkSize - c.chunkOverlap := by
      rw [c.step_eq]; omega
    have hstep_le : c.step ≤ c.maxChunkSize := by omega
    have ha' : a = (text.drop (i * c.step)).take c.maxChunkSize := by
      have := CodeChunker.splitText_get c text i hia
      rw [ha] at this
      exact Option.some_inj.mp this.symm |>.symm
    have hb' : b = (text.drop ((i + 1) * c.step)).take c.maxChunkSize := by
      have := CodeChunker.splitText_get c text (i + 1) hib
      rw [hb] at this
      exact Option.some_inj.mp this.symm |>.symm
    have halen : a.length = c.maxChunkSize := by
      rw [ha', List.length_take, List.length_drop]
      omega
    have hblen : c.chunkOverlap < b.length := by
      rw [hb', List.length_take, List.length_drop]
      have : (i + 1) * c.step = i * c.step + c.step := by ring
      omega
    refine ⟨halen, hblen, ?_⟩
    rw [halen, ha', hb']
    rw [List.drop_take, List.drop_drop]
    have h1 : c.maxChunkSize - (c.maxChunkSize - c.chunkOverlap) = c.chunkOverlap := by
      omega
    rw [hstep] at *
    have h2 : i * (c.maxChunkSize - c.chunkOverlap) + (c.maxChunkSize - c.chunkOverlap)
        = (i + 1) * (c.maxChunkSize - c.chunkOverlap) := by ring
    rw [h1, h2, List.take_take, Nat.min_eq_left (Nat.le_of_lt hmo)]

theorem splitText_eval_ex :
    CodeChunker.splitText ⟨3, 1⟩ "abcdef".data
      = ["abc".data, "cde".data, "ef".data] := by
  rw [CodeChunker.splitText, if_neg (by decide)]
  rw [CodeChunker.splitLoop_eq _ _ _ (by decide), if_pos (by decide)]
  rw [CodeChunker.splitLoop_eq _ _ _ (by decide), if_pos (by decide)]
  rw [CodeChunker.splitLoop_eq _ _ _ (by decide), if_neg (by decide)]
  decide

/-- Witness for `C6_splitText_window`: with `max_chunk_size = 3`,
`chunk_overlap = 1` and input `"abcdef"`, chunks 0 and 1 are `"abc"` and
`"cde"`, and they overlap in exactly the one character `c`. -/
theorem C6_splitText_window_witness :
    "abc".data.length = 3
    ∧ 1 < "cde".data.length
    ∧ "abc".data.drop ("abc".data.length - 1) = "cde".data.take 1 :=
  (C6_splitText_window ⟨3, 1⟩ "abcdef".data).2.2.2 (by decide) (by decide)
    0 "abc".data "cde".data
    (by rw [splitText_eval_ex]; decide)
    (by rw [splitText_eval_ex]; decide)

theorem charListLeb_total :
    ∀ a b : List Char, charListLeb a b = true ∨ charListLeb b a = true := by
  intro a
  induction a with
  | nil => intro b; left; rfl
  | cons x xs ih =>
    intro b
    cases b with
    | nil => right; rfl
    | cons y ys =>
      simp only [charListLeb]
      rcases lt_trichotomy x y with h | h | h
      · left; simp [h]
      · subst h
        simp only [lt_self_iff_false, if_false]
        exact ih ys
      · right; simp [h]

theorem charListLeb_trans :
    ∀ a b c : List Char, charListLeb a b = true → charListLeb b c = true →
      charListLeb a c = true := by
  intro a
  induction a with
  | nil => intro b c _ _; rfl
  | cons x xs ih =>
    intro b c hab hbc
    cases b with
    | nil => simp [charListLeb] at hab
    | cons y ys =>
      cases c with
      | nil => simp [charListLeb] at hbc
      | cons z zs =>
        simp only [charListLeb] at hab hbc ⊢
        rcases lt_trichotomy x y with h1 | h1 | h1
        · rcases lt_trichotomy y z with h2 | h2 | h2
          · simp [h1.trans h2]
          · subst h2; simp [h1]
          · rw [if_neg (asymm h2), if_pos h2] at hbc; simp at hbc
        · subst h1
          rcases lt_trichotomy x z with h2 | h2 | h2
          · simp [h2]
          · subst h2
            simp only [lt_self_iff_false, if_false] at hab hbc ⊢
            exact ih ys zs hab hbc
          · rw [if_neg (asymm h2), if_pos h2] at hbc; simp at hbc
        · rw [if_neg (asymm h1), if_pos h1] at hab; simp at hab

theorem charListLeb_antisymm :
    ∀ a b : List Char, charListLeb a b = true → charListLeb b a = true →
      a = b := by
  intro a
  induction a with
  | nil =>
    intro b _ hba
    cases b with
    | nil => rfl
    | cons y ys => simp [charListLeb] at hba
  | cons x xs ih =>
    intro b hab hba
    cases b with
    | nil => simp [charListLeb] at hab
    | cons y ys =>
      simp only [charListLeb] at hab hba
      rcases lt_trichotomy x y with h1 | h1 | h1
      · rw [if_neg (asymm h1), if_pos h1] at hba; simp at hba
      · subst h1
        simp only [lt_self_iff_false, if_false] at hab hba
        rw [ih ys hab hba]
      · rw [if_neg (asymm h1), if_pos h1] at hab; simp at hab

theorem strLeb_antisymm (x y : String) (h1 : strLeb x y = true)
    (h2 : strLeb y x = true) : x = y := by
  have h := charListLeb_antisymm x.data y.data h1 h2
  cases x; cases y
  exact congrArg String.mk (by simpa using h)

theorem mem_dedupConsec (a : String) :
    ∀ l : List String, a ∈ dedupConsec l ↔ a ∈ l := by
  intro l
  induction l with
  | nil => simp [dedupConsec]
  | cons x xs ih =>
    cases xs with
    | nil => simp [dedupConsec]
    | cons y ys =>
      rw [dedupConsec]
      by_cases h : x = y
      · subst h
        rw [if_pos rfl, ih]
        simp [List.mem_cons]
      · rw [if_neg h]
        simp [List.mem_cons, ih]

theorem dedupConsec_sorted_nodup :
    ∀ l : List String,
      l.Pairwise (fun a b => strLeb a b = true) → (dedupConsec l).Nodup := by
  intro l
  induction l with
  | nil => intro _; simp [dedupConsec]
  | cons x xs ih =>
    intro hp
    cases xs with
    | nil => simp [dedupConsec]
    | cons y ys =>
      rw [dedupConsec]
      have hp' : (y :: ys).Pairwise (fun a b => strLeb a b = true) := hp.of_cons
      by_cases h : x = y
      · rw [if_pos h]
        exact ih hp'
      · rw [if_neg h]
        refine List.nodup_cons.mpr ⟨?_, ih hp'⟩
        intro hmem
        have hxmem : x ∈ y :: ys := (mem_dedupConsec x (y :: ys)).mp hmem
        have hxy : strLeb x y = true := (List.pairwise_cons.mp hp).1 y (by simp)
        rcases List.mem_cons.mp hxmem with h1 | h1
        · exact h h1
        · have hyx : strLeb y x = true := (List.pairwise_cons.mp hp').1 x h1
          exact h (strLeb_antisymm x y hxy hyx)

theorem expand_eval_ex :
    QueryExpander.expand "zebra" "apple" = ["apple", "zebra"] := by
  rw [QueryExpander.expand]
  have h1 : parsedTerms "apple" = ["apple"] := by decide
  rw [h1]
  have h2 : (["zebra", "apple"] : List String).mergeSort strLeb
      = ["apple", "zebra"] := by
    have h3 : strLeb "zebra" "apple" = false := by decide
    simp [List.mergeSort, List.merge, h3]
  rw [h2]
  decide

/-- **C5** counterexample: the claim says the original query is the *first*
element of the expanded list, but `expand` sorts after inserting the query
at the head, so for query `"zebra"` and reply `"apple"` the first element is
`"apple"`, not `"zebra"`. -/
theorem C5_expand_head_counterexample :
    (QueryExpander.expand "zebra" "apple").head? ≠ some "zebra" := by
  rw [expand_eval_ex]
  decide

/-- **C5** (amended): for every query and LLM reply, the list returned by
`QueryExpander::expand` contains no duplicates, contains every non-empty
trimmed comma-separated term of the reply, and *contains* the original query
— but, because the list is sorted before deduplication, the query is not
necessarily its first element. -/
theorem C5_expand_amended (query response : String) :
    (QueryExpander.expand query response).Nodup
    ∧ query ∈ QueryExpander.expand query response
    ∧ ∀ t, t ∈ parsedTerms response → t ∈ QueryExpander.expand query response := by
  have htr : ∀ a b c : String, strLeb a b = true → strLeb b c = true →
      strLeb a c = true := fun a b c hab hbc =>
    charListLeb_trans a.data b.data c.data hab hbc
  have htot : ∀ a b : String, (strLeb a b || strLeb b a) = true := by
    intro a b
    rcases charListLeb_total a.data b.data with h | h <;>
      simp [strLeb, h]
  have hsorted := List.sorted_mergeSort htr htot (query :: parsedTerms response)
  have hperm := List.mergeSort_perm (query :: parsedTerms response) strLeb
  refine ⟨dedupConsec_sorted_nodup _ hsorted, ?_, ?_⟩
  · rw [QueryExpander.expand, mem_dedupConsec, hperm.mem_iff]
    simp
  · intro t ht
    rw [QueryExpander.expand, mem_dedupConsec, hperm.mem_iff]
    simp [ht]

/-- Witness for `C5_expand_amended`: for query `"auth"` and reply
`"authentication, login"`, the parsed term `"login"` is in the output. -/
theorem C5_expand_amended_witness :
    "login" ∈ QueryExpander.expand "auth" "authentication, login" :=
  (C5_expand_amended "auth" "authentication, login").2.2 "login" (by decide)

namespace ContextOptimizer

theorem budgetFilter_sum (tok : String → Nat) (limit : Nat) :
    ∀ (l : List MergedChunk) (cur : Nat), cur ≤ limit →
      cur + ((budgetFilter tok limit l cur).map (fun ch => tok ch.code)).sum
        ≤ limit := by
  intro l
  induction l with
  | nil => intro cur h; simpa [budgetFilter]
  | cons chunk rest ih =>
    intro cur h
    simp only [budgetFilter]
    by_cases hc : cur + tok chunk.code ≤ limit
    · rw [if_pos hc]
      simp only [List.map_cons, List.sum_cons]
      have := ih (cur + tok chunk.code) hc
      omega
    · rw [if_neg hc]
      exact ih cur h

theorem budgetFilter_subset (tok : String → Nat) (limit : Nat) :
    ∀ (l : List MergedChunk) (cur : Nat),
      ∀ ch ∈ budgetFilter tok limit l cur, ch ∈ l := by
  intro l
  induction l with
  | nil => intro cur ch hch; simp [budgetFilter] at hch
  | cons chunk rest ih =>
    intro cur ch hch
    simp only [budgetFilter] at hch
    by_cases hc : cur + tok chunk.code ≤ limit
    · rw [if_pos hc] at hch
      rcases List.mem_cons.mp hch with h | h
      · exact h ▸ List.mem_cons_self _ _
      · exact List.mem_cons_of_mem _ (ih _ ch h)
    · rw [if_neg hc] at hch
      exact List.mem_cons_of_mem _ (ih _ ch hch)

theorem mergeWalk_chunks (pool : List SearchResult) (F : String) :
    ∀ (rs : List SearchResult) (curr : Option MergedChunk),
      (∀ r ∈ rs, r ∈ pool) →
      (∀ r ∈ rs, r.filename = F) →
      rs.Pairwise (fun a b => a.line_start ≤ b.line_start) →
      (∀ c, curr = some c → c.filename = F
        ∧ (∀ r ∈ rs, c.start_line ≤ r.line_start)
        ∧ (∃ contrib : List SearchResult, contrib ≠ []
          ∧ (∀ r ∈ contrib, r ∈ pool)
          ∧ (∀ r ∈ contrib, r.filename = c.filename)
          ∧ (∃ r0 ∈ contrib, c.start_line = r0.line_start
              ∧ ∀ r ∈ contrib, r0.line_start ≤ r.line_start)
          ∧ (∃ r1 ∈ contrib, c.end_line = r1.line_end
              ∧ ∀ r ∈ contrib, r.line_end ≤ r1.line_end))) →
      ∀ ch ∈ mergeWalk rs curr,
        ∃ contrib : List SearchResult, contrib ≠ []
          ∧ (∀ r ∈ contrib, r ∈ pool)
          ∧ (∀ r ∈ contrib, r.filename = ch.filename)
          ∧ (∃ r0 ∈ contrib, ch.start_line = r0.line_start
              ∧ ∀ r ∈ contrib, r0.line_start ≤ r.line_start)
          ∧ (∃ r1 ∈ contrib, ch.end_line = r1.line_end
              ∧ ∀ r ∈ contrib, r.line_end ≤ r1.line_end) := by
  intro rs
  induction rs with
  | nil =>
    intro curr hpool hF hsort hinv ch hch
    cases curr with
    | none => simp [mergeWalk] at hch
    | some c =>
      simp only [mergeWalk, List.mem_singleton] at hch
      subst hch
      exact (hinv _ rfl).2.2
  | cons res rest ih =>
    intro curr hpool hF hsort hinv ch hch
    have hpool' : ∀ r ∈ rest, r ∈ pool :=
      fun r hr => hpool r (List.mem_cons_of_mem _ hr)
    have hF' : ∀ r ∈ rest, r.filename = F :=
      fun r hr => hF r (List.mem_cons_of_mem _ hr)
    have hsort' := hsort.of_cons
    have hhead : ∀ r ∈ rest, res.line_start ≤ r.line_start :=
      (List.pairwise_cons.mp hsort).1
    have hresF : res.filename = F := hF res (List.mem_cons_self _ _)
    have hresP : res ∈ pool := hpool res (List.mem_cons_self _ _)
    have hsingle : ∀ c, some (from_single res) = some c → c.filename = F
        ∧ (∀ r ∈ rest, c.start_line ≤ r.line_start)
        ∧ (∃ contrib : List SearchResult, contrib ≠ []
          ∧ (∀ r ∈ contrib, r ∈ pool)
          ∧ (∀ r ∈ contrib, r.filename = c.filename)
          ∧ (∃ r0 ∈ contrib, c.start_line = r0.line_start
              ∧ ∀ r ∈ contrib, r0.line_start ≤ r.line_start)
          ∧ (∃ r1 ∈ contrib, c.end_line = r1.line_end
              ∧ ∀ r ∈ contrib, r.line_end ≤ r1.line_end)) := by
      intro c hc
      have hc' : from_single res = c := Option.some_inj.mp hc
      subst hc'
      refine ⟨hresF, hhead, [res], by simp, by simpa using hresP,
        by simp [from_single], ⟨res, by simp, rfl, by simp⟩,
        ⟨res, by simp, rfl, by simp⟩⟩
    cases curr with
    | none =>
      simp only [mergeWalk] at hch
      exact ih _ hpool' hF' hsort' hsingle ch hch
    | some c =>
      obtain ⟨hcF, hfuture, contrib, hne, hmem, hfn,
        ⟨r0, hr0m, hr0eq, hr0min⟩, ⟨r1, hr1m, hr1eq, hr1max⟩⟩ := hinv c rfl
      simp only [mergeWalk] at hch
      by_cases hm : res.line_start ≤ c.end_line + 5
      · rw [if_pos hm] at hch
        refine ih _ hpool' hF' hsort' ?_ ch hch
        intro c' hc'
        have hc'' := Option.some_inj.mp hc'
        subst hc''
        refine ⟨hcF, ?_, contrib ++ [res], by simp, ?_, ?_, ?_, ?_⟩
        · intro r hr
          exact hfuture r (List.mem_cons_of_mem _ hr)
        · intro r hr
          rcases List.mem_append.mp hr with h | h
          · exact hmem r h
          · simp at h; subst h; exact hresP
        · intro r hr
          rcases List.mem_append.mp hr with h | h
          · exact hfn r h
          · simp at h; subst h; simpa using hresF.trans hcF.symm
        · refine ⟨r0, List.mem_append_left _ hr0m, hr0eq, ?_⟩
          intro r hr
          rcases List.mem_append.mp hr with h | h
          · exact hr0min r h
          · simp at h; subst h
            have := hfuture r (List.mem_cons_self _ _)
            omega
        · rcases le_total c.end_line res.line_end with hle | hle
          · refine ⟨res, List.mem_append_right _ (by simp), ?_, ?_⟩
            · show c.end_line ⊔ res.line_end = res.line_end
              exact sup_eq_right.mpr hle
            · intro r hr
              rcases List.mem_append.mp hr with h | h
              · have := hr1max r h
                omega
              · simp at h; subst h; exact le_refl _
          · refine ⟨r1, List.mem_append_left _ hr1m, ?_, ?_⟩
            · show c.end_line ⊔ res.line_end = r1.line_end
              rw [sup_eq_left.mpr hle]
              exact hr1eq
            · intro r hr
              rcases List.mem_append.mp hr with h | h
              · exact hr1max r h
              · simp at h; subst h; omega
      · rw [if_neg hm] at hch
        rcases List.mem_cons.mp hch with h | h
        · subst h
          exact ⟨contrib, hne, hmem, hfn, ⟨r0, hr0m, hr0eq, hr0min⟩,
            ⟨r1, hr1m, hr1eq, hr1max⟩⟩
        · exact ih _ hpool' hF' hsort' hsingle ch h

theorem lineStartLeb_trans : ∀ a b c : SearchResult,
    lineStartLeb a b = true → lineStartLeb b c = true →
    lineStartLeb a c = true := by
  intro a b c h1 h2
  simp only [lineStartLeb, decide_eq_true_eq] at *
  omega

theorem lineStartLeb_total : ∀ a b : SearchResult,
    (lineStartLeb a b || lineStartLeb b a) = true := by
  intro a b
  simp only [lineStartLeb, Bool.or_eq_true, decide_eq_true_eq]
  omega

end ContextOptimizer

/-- **C7**: the context optimiser's output fits the token budget (the sum of
`tok` over the returned chunks is at most `token_limit`), every returned
chunk is one of the merged chunks unmodified (never truncated — a chunk that
does not fit the remaining budget is excluded entirely), and every returned
chunk spans exactly its contributing results: `start_line` is the least
contributing `line_start` and `end_line` the greatest contributing
`line_end`.  `tok` is the external cl100k tokenizer's count. -/
theorem C7_optimize_budget (o : ContextOptimizer) (tok : String → Nat)
    (results : List SearchResult) :
    ((o.optimize tok results).map (fun ch => tok ch.code)).sum ≤ o.token_limit
    ∧ ∀ ch ∈ o.optimize tok results,
        ch ∈ (ContextOptimizer.groupByFilename results).flatMap
          (fun g => ContextOptimizer.mergeWalk (ContextOptimizer.sortByLineStart g) none)
        ∧ ∃ contrib : List SearchResult, contrib ≠ []
            ∧ (∀ r ∈ contrib, r ∈ results)
            ∧ (∀ r ∈ contrib, r.filename = ch.filename)
            ∧ (∃ r0 ∈ contrib, ch.start_line = r0.line_start
                ∧ ∀ r ∈ contrib, r0.line_start ≤ r.line_start)
            ∧ (∃ r1 ∈ contrib, ch.end_line = r1.line_end
                ∧ ∀ r ∈ contrib, r.line_end ≤ r1.line_end) := by
  open ContextOptimizer in
  by_cases hemp : results.isEmpty = true
  · constructor
    · simp [ContextOptimizer.optimize, hemp]
    · intro ch hch
      simp [ContextOptimizer.optimize, hemp] at hch
  · have hopt : o.optimize tok results
        = (budgetFilter tok o.token_limit
            (((groupByFilename results).flatMap
              (fun g => mergeWalk (sortByLineStart g) none)).mergeSort
              maxScoreGeb) 0).mergeSort fileLineLeb := by
      simp only [ContextOptimizer.optimize]
      rw [if_neg hemp]
    constructor
    · rw [hopt]
      rw [((List.mergeSort_perm _ fileLineLeb).map (fun ch => tok ch.code)).sum_eq]
      have := budgetFilter_sum tok o.token_limit
        (((groupByFilename results).flatMap
          (fun g => mergeWalk (sortByLineStart g) none)).mergeSort maxScoreGeb)
        0 (Nat.zero_le _)
      omega
    · intro ch hch
      rw [hopt] at hch
      have h1 := (List.mergeSort_perm _ fileLineLeb).mem_iff.mp hch
      have h2 := budgetFilter_subset tok o.token_limit _ _ ch h1
      have h3 := (List.mergeSort_perm _ maxScoreGeb).mem_iff.mp h2
      refine ⟨h3, ?_⟩
      obtain ⟨g, hg, hchg⟩ := List.mem_flatMap.mp h3
      obtain ⟨f, hf, rfl⟩ := List.mem_map.mp hg
      have hgperm := List.mergeSort_perm
        (results.filter (fun r => r.filename = f)) lineStartLeb
      have hpw0 := List.sorted_mergeSort lineStartLeb_trans lineStartLeb_total
        (results.filter (fun r => r.filename = f))
      have hpw : (sortByLineStart (results.filter (fun r => r.filename = f))).Pairwise
          (fun a b => a.line_start ≤ b.line_start) := by
        refine hpw0.imp ?_
        intro a b h
        simpa [lineStartLeb] using h
      refine mergeWalk_chunks results f
        (sortByLineStart (results.filter (fun r => r.filename = f))) none
        ?_ ?_ hpw ?_ ch hchg
      · intro r hr
        have := hgperm.mem_iff.mp hr
        exact (List.mem_filter.mp this).1
      · intro r hr
        have := hgperm.mem_iff.mp hr
        have := (List.mem_filter.mp this).2
        simpa using this
      · intro c hc
        exact Option.noConfusion hc

theorem optimize_eval_ex :
    ContextOptimizer.optimize ⟨10⟩ (fun s => s.data.length)
      [⟨0, 1, "a.rs", "ab", 1, 2, []⟩]
      = [⟨"a.rs", 1, 2, "ab", [1], 1, 1⟩] := by
  simp [ContextOptimizer.optimize, ContextOptimizer.groupByFilename,
    ContextOptimizer.sortByLineStart, ContextOptimizer.mergeWalk,
    ContextOptimizer.budgetFilter, ContextOptimizer.from_single,
    List.mergeSort, List.dedup]
  rw [if_pos (by decide : ("ab".length ≤ 10))]
  simp [List.mergeSort]

/-- Witness for `C7_optimize_budget`: one result (`a.rs`, lines 1–2, two
tokens, budget 10) is returned as a single merged chunk spanning exactly its
contributor. -/
theorem C7_optimize_budget_witness :
    (⟨"a.rs", 1, 2, "ab", [1], 1, 1⟩ : MergedChunk)
        ∈ (ContextOptimizer.groupByFilename [⟨0, 1, "a.rs", "ab", 1, 2, []⟩]).flatMap
          (fun g => ContextOptimizer.mergeWalk (ContextOptimizer.sortByLineStart g) none)
    ∧ ∃ contrib : List SearchResult, contrib ≠ []
        ∧ (∀ r ∈ contrib, r ∈ [(⟨0, 1, "a.rs", "ab", 1, 2, []⟩ : SearchResult)])
        ∧ (∀ r ∈ contrib, r.filename = (⟨"a.rs", 1, 2, "ab", [1], 1, 1⟩ : MergedChunk).filename)
        ∧ (∃ r0 ∈ contrib, (⟨"a.rs", 1, 2, "ab", [1], 1, 1⟩ : MergedChunk).start_line = r0.line_start
            ∧ ∀ r ∈ contrib, r0.line_start ≤ r.line_start)
        ∧ (∃ r1 ∈ contrib, (⟨"a.rs", 1, 2, "ab", [1], 1, 1⟩ : MergedChunk).end_line = r1.line_end
            ∧ ∀ r ∈ contrib, r.line_end ≤ r1.line_end) :=
  (C7_optimize_budget ⟨10⟩ (fun s => s.data.length)
    [⟨0, 1, "a.rs", "ab", 1, 2, []⟩]).2
    ⟨"a.rs", 1, 2, "ab", [1], 1, 1⟩
    (by rw [optimize_eval_ex]; exact List.mem_singleton.mpr rfl)

theorem ok_bind {α β : Type} (a : α) (f : α → Except String β) :
    (Except.ok a >>= f : Except String β) = f a := rfl

theorem extractName_ok (env : ChunkEnv)
    (hr : ∀ s l, ∃ v, env.readRange s l = .ok v) :
    ∀ ns, ∃ o, extractName env ns = .ok o := by
  intro ns
  induction ns with
  | nil => exact ⟨none, rfl⟩
  | cons n rest ih =>
    cases n with
    | mk k sb eb sr er children =>
      by_cases h : (k = "identifier" || k = "field_expression"
          || k = "scoped_identifier") = true
      · obtain ⟨v, hv⟩ := hr sb (eb - sb)
        exact ⟨some (String.mk (env.decode v)),
          by simp [extractName, h, hv, ok_bind]⟩
      · obtain ⟨o, ho⟩ := ih
        exact ⟨o, by simp [extractName, h, ho]⟩

theorem findCallsList_ok (env : ChunkEnv)
    (hr : ∀ s l, ∃ v, env.readRange s l = .ok v) :
    ∀ ns, ∃ v, findCallsList env ns = .ok v
  | [] => ⟨[], by simp [findCallsList]⟩
  | .mk k sb eb sr er children :: rest => by
    obtain ⟨i, hi⟩ := findCallsList_ok env hr children
    obtain ⟨t, ht⟩ := findCallsList_ok env hr rest
    by_cases h : (k = "call_expression" || k = "call"
        || k = "macro_invocation") = true
    · obtain ⟨o, ho⟩ := extractName_ok env hr children
      cases o with
      | none => exact ⟨i ++ t, by simp [findCallsList, h, ho, hi, ht, ok_bind]⟩
      | some s =>
        exact ⟨s :: (i ++ t), by simp [findCallsList, h, ho, hi, ht, ok_bind]⟩
    · exact ⟨i ++ t, by simp [findCallsList, h, hi, ht, ok_bind]⟩

mutual

theorem traverse_ok (c : CodeChunker) (env : ChunkEnv) (ext filename : String)
    (mtime : Int) (hr : ∀ s l, ∃ v, env.readRange s l = .ok v) :
    ∀ n depth, ∃ v, traverse c env ext filename mtime n depth = .ok v
  | .mk kind sb eb sr er children, depth => by
    obtain ⟨w, hw⟩ :=
      traverseList_ok c env ext filename mtime hr children (depth + 1)
    simp only [traverse]
    split
    · split
      · exact ⟨[], rfl⟩
      · split
        · obtain ⟨bv, hbv⟩ := hr sb (eb - sb)
          obtain ⟨cv, hcv⟩ := findCallsList_ok env hr children
          rw [hbv, ok_bind, hcv, ok_bind]
          split
          · exact ⟨_, rfl⟩
          · rw [hw, ok_bind]
            exact ⟨_, rfl⟩
        · exact ⟨w, hw⟩
    · exact ⟨w, hw⟩

theorem traverseList_ok (c : CodeChunker) (env : ChunkEnv)
    (ext filename : String) (mtime : Int)
    (hr : ∀ s l, ∃ v, env.readRange s l = .ok v) :
    ∀ ns depth, ∃ v, traverseList c env ext filename mtime ns depth = .ok v
  | [], _ => ⟨[], by simp [traverseList]⟩
  | n :: rest, depth => by
    obtain ⟨a, ha⟩ := traverse_ok c env ext filename mtime hr n depth
    obtain ⟨b, hb⟩ := traverseList_ok c env ext filename mtime hr rest depth
    exact ⟨a ++ b, by simp [traverseList, ha, hb, ok_bind]⟩

end

/-- **C9**: `chunk_file` returns a successful empty chunk list — never an
error — when the extension is outside the closed language table, when the
language cannot be installed in the parser, when a null byte occurs among
the sniffed first bytes, or when parsing fails; and when every reader
operation succeeds the call succeeds, so an error can only arise from a
failing reader I/O operation. -/
theorem C9_chunk_file_error_routing (c : CodeChunker) (filename : String)
    (mtime : Int) (env : ChunkEnv) :
    (getLanguage env.ext = none → c.chunk_file filename mtime env = .ok [])
    ∧ (env.setLanguageOk = false → c.chunk_file filename mtime env = .ok [])
    ∧ (∀ bs, env.sniff = .ok bs → bs.contains 0 = true →
        c.chunk_file filename mtime env = .ok [])
    ∧ (∀ bs, env.sniff = .ok bs → bs.contains 0 = false → env.parse = none →
        c.chunk_file filename mtime env = .ok [])
    ∧ ((∃ bs, env.sniff = .ok bs) → (∀ s l, ∃ v, env.readRange s l = .ok v) →
        ∃ chunks, c.chunk_file filename mtime env = .ok chunks) := by
  refine ⟨?_, ?_, ?_, ?_, ?_⟩
  · intro h
    unfold CodeChunker.chunk_file
    rw [h]
  · intro h
    unfold CodeChunker.chunk_file
    cases hl : getLanguage env.ext with
    | none => rfl
    | some _ => simp [h]
  · intro bs hs hnull
    unfold CodeChunker.chunk_file
    cases hl : getLanguage env.ext with
    | none => rfl
    | some _ =>
      cases hsl : env.setLanguageOk with
      | false => simp
      | true =>
        simp only [Bool.not_true, Bool.false_eq_true, if_false, hs, ok_bind]
        split
        · rfl
        · rename_i hcond
          exact absurd hnull hcond
  · intro bs hs hnull hp
    unfold CodeChunker.chunk_file
    cases hl : getLanguage env.ext with
    | none => rfl
    | some _ =>
      cases hsl : env.setLanguageOk with
      | false => simp
      | true =>
        simp only [Bool.not_true, Bool.false_eq_true, if_false, hs, ok_bind]
        split
        · rename_i hcond
          rw [hnull] at hcond
        · rw [hp]
  · intro hsn hr
    unfold CodeChunker.chunk_file
    cases hl : getLanguage env.ext with
    | none => exact ⟨[], rfl⟩
    | some _ =>
      cases hsl : env.setLanguageOk with
      | false => exact ⟨[], by simp⟩
      | true =>
        obtain ⟨bs, hs⟩ := hsn
        rw [hs]
        simp only [Bool.not_true, Bool.false_eq_true, if_false, ok_bind]
        split
        · exact ⟨[], rfl⟩
        · cases hp : env.parse with
          | none => exact ⟨[], rfl⟩
          | some tree =>
            obtain ⟨v, hv⟩ := traverse_ok c env env.ext
              (String.mk (filename.data.map fun ch =>
                if ch = '\\' then '/' else ch)) mtime hr tree 0
            exact ⟨v, hv⟩

/-- Witness for `C9_chunk_file_error_routing`: a `.txt` file (outside the
language table) yields `Ok(vec![])`. -/
theorem C9_chunk_file_error_routing_witness :
    CodeChunker.chunk_file ⟨1024, 128⟩ "notes.txt" 0
      { ext := "txt", setLanguageOk := true, sniff := .ok [65, 66],
        parse := none, readRange := fun _ _ => .ok [],
        decode := fun _ => [] } = .ok [] :=
  (C9_chunk_file_error_routing ⟨1024, 128⟩ "notes.txt" 0 _).1 rfl

/-- **C1** evidence: the vector store persists no workspace at all.  The
schema built by `Storage::init` has columns
`id, filename, code, line_start, line_end, last_modified, calls, vector` —
no `workspace` column — and `Storage::search` (which has no workspace
parameter) returns a chunk added on behalf of workspace A to a search made
on behalf of any other workspace: with one row added, an unfiltered search
returns that row. -/
theorem C1_storage_no_workspace :
    (initSchema 2).map Prod.fst
      = ["id", "filename", "code", "line_start", "line_end",
         "last_modified", "calls", "vector"]
    ∧ "workspace" ∉ (initSchema 2).map Prod.fst
    ∧ Storage.search
        (Storage.add_chunks [] ["a.rs-1-2"] ["a.rs"] ["fn a() {}"]
          [1] [2] [0] [[]] [[1, 0]])
        [1, 0] 10 none
      = [⟨"a.rs-1-2", "a.rs", "fn a() {}", 1, 2, 0, [], [1, 0]⟩] := by
  refine ⟨rfl, by decide, ?_⟩
  simp [Storage.search, Storage.add_chunks, Storage.buildRows, List.mergeSort]

theorem process_batch_no_commit (embedOk : List String → Bool)
    (chunks : List CodeChunk) (pending : List String) :
    IndexEv.commit ∉ process_batch embedOk chunks pending := by
  by_cases h1 : pending.isEmpty <;>
    by_cases h2 : chunks.isEmpty <;>
    by_cases h3 : embedOk (chunks.map (·.code)) <;>
    simp [process_batch, h1, h2, h3]

theorem flushCheck_no_commit (cfg : IndexRunCfg) (embedOk : List String → Bool)
    (s : RunState) (hs : IndexEv.commit ∉ s.trace) :
    IndexEv.commit ∉ (flushCheck cfg embedOk s).trace := by
  unfold flushCheck
  split
  · simp only [List.mem_append]
    rintro (hc | hc)
    · exact hs hc
    · exact process_batch_no_commit _ _ _ hc
  · exact hs

theorem bufferChunks_trace (openOk : Bool)
    (chunkRes : Except String (List CodeChunk)) (s : RunState) :
    (bufferChunks openOk chunkRes s).trace = s.trace := by
  unfold bufferChunks
  cases openOk with
  | false => rfl
  | true => cases chunkRes <;> rfl

theorem stepEntry_no_commit (cfg : IndexRunCfg) (existing : List (String × Int))
    (embedOk : List String → Bool) (st : RunState) (e : WalkEntry)
    (h : IndexEv.commit ∉ st.trace) :
    IndexEv.commit ∉ (stepEntry cfg existing embedOk st e).trace := by
  cases e with
  | err => exact h
  | entry isFile path ext metadataOk size mtime openOk chunkRes =>
    simp only [stepEntry]
    split
    · exact h
    · split
      · exact h
      · split
        · exact h
        · split
          · exact flushCheck_no_commit cfg embedOk st h
          · split
            · exact h
            · split
              · split
                · split
                  · exact h
                  · apply flushCheck_no_commit
                    rw [bufferChunks_trace]
                    exact h
                · apply flushCheck_no_commit
                  rw [bufferChunks_trace]
                  exact h
              · apply flushCheck_no_commit
                rw [bufferChunks_trace]
                exact h

theorem staleEvents_no_commit (cfg : IndexRunCfg)
    (existing : List (String × Int)) (visited : List String) :
    IndexEv.commit ∉ staleEvents cfg existing visited := by
  unfold staleEvents
  split
  · simp only []
    split
    · simp
    · intro h
      obtain ⟨batch, _, hb⟩ := List.mem_flatMap.mp h
      simp at hb
  · simp

/-- **C8**: in every modelled run of the batch indexing command the trace
ends with exactly one `commit` (followed only by the best-effort filename
index creation), so the commit is invoked at most once and after every
`add_chunks`, every flush batch-delete and every stale-cleanup delete; and
within each flush the deletions precede the insertions. -/
theorem C8_commit_once_last (cfg : IndexRunCfg) (existing : List (String × Int))
    (embedOk : List String → Bool) (entries : List WalkEntry) :
    (∃ body, index_codebase cfg existing embedOk entries
        = body ++ [IndexEv.commit, IndexEv.createFilenameIndex]
      ∧ IndexEv.commit ∉ body)
    ∧ (∀ chunks pending, ∃ dels adds,
        process_batch embedOk chunks pending = dels ++ adds
        ∧ (∀ ev ∈ dels, ev = IndexEv.storageBatchDelete pending
            ∨ ev = IndexEv.bm25BatchDelete pending)
        ∧ (∀ ev ∈ adds, ev = IndexEv.storageAdd chunks.length
            ∨ ev = IndexEv.bm25Add chunks.length)) := by
  constructor
  · have hfold : ∀ (es : List WalkEntry) (st : RunState),
        IndexEv.commit ∉ st.trace →
        IndexEv.commit ∉ (es.foldl
          (fun s e => stepEntry cfg existing embedOk s e) st).trace := by
      intro es
      induction es with
      | nil => intro st h; exact h
      | cons e rest ih =>
        intro st h
        exact ih _ (stepEntry_no_commit cfg existing embedOk st e h)
    refine ⟨_, rfl, ?_⟩
    simp only [List.mem_append]
    rintro ((hc | hc) | hc)
    · exact hfold entries ⟨[], [], [], []⟩ (by simp) hc
    · split at hc
      · exact process_batch_no_commit _ _ _ hc
      · simp at hc
    · exact staleEvents_no_commit cfg existing _ hc
  · intro chunks pending
    refine ⟨_, _, rfl, ?_, ?_⟩
    · intro ev hev
      split at hev
      · simp at hev
      · simp at hev
        rcases hev with h | h
        · exact Or.inl h
        · exact Or.inr h
    · intro ev hev
      split at hev
      · simp at hev
      · split at hev
        · simp at hev
          rcases hev with h | h
          · exact Or.inl h
          · exact Or.inr h
        · simp at hev

/-- Witness for `C8_commit_once_last`: a concrete flush with one queued
deletion splits into deletions followed by insertions. -/
theorem C8_commit_once_last_witness :
    ∃ dels adds,
      process_batch (fun _ => true) [] ["a.rs"] = dels ++ adds
      ∧ (∀ ev ∈ dels, ev = IndexEv.storageBatchDelete ["a.rs"]
          ∨ ev = IndexEv.bm25BatchDelete ["a.rs"])
      ∧ (∀ ev ∈ adds, ev = IndexEv.storageAdd ([] : List CodeChunk).length
          ∨ ev = IndexEv.bm25Add ([] : List CodeChunk).length) :=
  (C8_commit_once_last ⟨[], 0, 1, false⟩ [] (fun _ => true) []).2 [] ["a.rs"]

theorem finishPhase_trace (env : SearchEnv) (query : String) (limit : Nat)
    (no_rerank : Bool) (max_tokens : Option Nat)
    (candidates : List SearchResult)
    (bmTrace : List (String × Nat × Option String)) :
    (CodeSearcher.finishPhase env query limit no_rerank max_tokens candidates
      bmTrace).2 = bmTrace := by
  cases max_tokens with
  | none => rfl
  | some t =>
    unfold CodeSearcher.finishPhase
    cases henv : env.cl100k <;> simp [henv]

theorem semantic_search_eval_ex :
    exSearcher.semantic_search exEnv "q" 2 none none true none none false
      = (.ok exResults, [("q", 2, none)]) := by
  simp only [CodeSearcher.semantic_search, exSearcher, exEnv, exRowA, exBm25B,
    CodeSearcher.vectorPhase, CodeSearcher.processBatches,
    CodeSearcher.processBatchRows, CodeSearcher.finishPhase,
    CodeSearcher.assignRanks, CodeSearcher.scoreCandidates,
    CodeSearcher.addBm25Hits, CodeSearcher.buildBm25Ranks,
    CodeSearcher.mkId, CodeSearcher.fetchLimit, CodeSearcher.buildFilterStr,
    CodeSearcher.compute_rrf_component, ok_bind, exResults]
  norm_num
  rw [if_neg (by decide : ¬ ("b.rs-1-2" = "a.rs" ++ "-" ++ toString (1:Int)
    ++ "-" ++ toString (2:Int)))]
  simp only [List.map, List.take, List.enum, List.enumFrom]
  norm_num
  rw [if_pos (by decide : ("a.rs" ++ "-" ++ toString (1:Int) ++ "-"
    ++ toString (2:Int)) = "a.rs-1-2")]
  rw [if_neg (by decide : ¬ (("a.rs" ++ "-" ++ toString (1:Int) ++ "-"
    ++ toString (2:Int)) = "b.rs-1-2"))]
  rw [if_neg (by decide : ¬ (("b.rs" ++ "-" ++ toString (1:Int) ++ "-"
    ++ toString (2:Int)) = "a.rs-1-2"))]
  rw [if_pos (by decide : ("b.rs" ++ "-" ++ toString (1:Int) ++ "-"
    ++ toString (2:Int)) = "b.rs-1-2")]
  norm_num

/-- **C2** evidence: with re-ranking skipped (`no_rerank`), no sort happens
between fused scoring and truncation, so the returned sequence is *not* in
non-increasing fused-score order: a BM25-only candidate with the larger
fused score (`2/61`) is returned at rank 2 behind a vector candidate with
the smaller fused score (`1/61`).  (This run is insensitive to `HashMap`
iteration order: the vector side holds a single candidate, and BM25-only
candidates are appended after all vector candidates.) -/
theorem C2_no_rerank_unsorted :
    (exSearcher.semantic_search exEnv "q" 2 none none true none none false).1
      = .ok exResults
    ∧ exResults.map (·.rank) = [1, 2]
    ∧ exResults.map (·.score) = [1/61, 2/61]
    ∧ ¬ ((2 : ℚ)/61 ≤ 1/61) := by
  refine ⟨by rw [semantic_search_eval_ex], rfl, rfl, by norm_num⟩

/-- **C3**: on every successful `semantic_search` with a configured lexical
store, lexical retrieval happens exactly once, with the original
(un-expanded) query — but with **no** workspace argument: the recorded
invocation carries `none`, so `BM25Index::search` ANDs no workspace-equality
term into the query (it would AND one exactly when a workspace is given). -/
theorem C3_bm25_call_no_workspace (s : CodeSearcher) (env : SearchEnv)
    (query : String) (limit : Nat) (ext dir : Option String)
    (no_rerank : Bool) (workspace : Option String) (max_tokens : Option Nat)
    (enable_expansion : Bool) (res : List SearchResult)
    (hbm : s.bm25Configured = true)
    (hok : (s.semantic_search env query limit ext dir no_rerank workspace
        max_tokens enable_expansion).1 = .ok res) :
    (s.semantic_search env query limit ext dir no_rerank workspace
        max_tokens enable_expansion).2
      = [(query, CodeSearcher.fetchLimit no_rerank limit, (none : Option String))]
    ∧ hasWorkspaceTerm (bm25BuildQuery query none) = false
    ∧ ∀ w, hasWorkspaceTerm (bm25BuildQuery query (some w)) = true := by
  refine ⟨?_, rfl, fun w => rfl⟩
  unfold CodeSearcher.semantic_search at hok ⊢
  cases hsc : s.storageConfigured with
  | false => rw [hsc] at hok; simp at hok
  | true =>
    rw [hsc] at hok
    cases hec : s.embedderConfigured with
    | false => rw [hec] at hok; simp at hok
    | true =>
      rw [hec] at hok
      cases hvp : CodeSearcher.vectorPhase env s.rrf_k
          (CodeSearcher.fetchLimit no_rerank limit)
          (CodeSearcher.buildFilterStr ext dir) workspace
          (if enable_expansion && s.expanderConfigured then
            match env.expandRes with
            | .ok expanded => expanded
            | .error _ => [query]
          else [query]) (fun _ => 0) [] with
      | error e =>
        rw [hvp] at hok
        simp at hok
      | ok p =>
        obtain ⟨scores, acc⟩ := p
        rw [hbm]
        cases hbs : env.bm25Search query
            (CodeSearcher.fetchLimit no_rerank limit) with
        | ok bm25_results =>
          exact finishPhase_trace env query limit no_rerank max_tokens _ _
        | error e =>
          exact finishPhase_trace env query limit no_rerank max_tokens _ _

/-- Witness for `C3_bm25_call_no_workspace`: the concrete successful run of
the example environment records exactly one BM25 invocation, with the
original query and no workspace. -/
theorem C3_bm25_call_no_workspace_witness :
    (exSearcher.semantic_search exEnv "q" 2 none none true none none false).2
      = [("q", CodeSearcher.fetchLimit true 2, (none : Option String))]
    ∧ hasWorkspaceTerm (bm25BuildQuery "q" none) = false
    ∧ ∀ w, hasWorkspaceTerm (bm25BuildQuery "q" (some w)) = true :=
  C3_bm25_call_no_workspace exSearcher exEnv "q" 2 none none true none none
    false exResults rfl
    (by rw [semantic_search_eval_ex])

/-- **C10**: `CodeIndexer::index_file` succeeds for every input — every
collaborator failure (deleting old entries, opening, chunking, embedding,
writing to either store) is swallowed — while `CodeIndexer::remove_file`
propagates deletion errors from the vector store and, when that succeeds,
from the BM25 store. -/
theorem C10_index_file_infallible (env : IndexFileEnv) :
    CodeIndexer.index_file env = .ok ()
    ∧ (∀ e, env.storageDeleteRes = .error e →
        CodeIndexer.remove_file env = .error e)
    ∧ (env.storageDeleteRes = .ok () → ∀ e, env.bm25DeleteRes = .error e →
        CodeIndexer.remove_file env = .error e) := by
  refine ⟨?_, ?_, ?_⟩
  · unfold CodeIndexer.index_file
    rcases getLanguage env.ext with _ | _ <;> try rfl
    rcases env.openRes with _ | _ <;> try rfl
    rcases env.chunkRes with _ | chunks <;> try rfl
    by_cases h : chunks.isEmpty <;>
      rcases henv : env.embedRes with _ | _ <;>
      simp [h, henv]
  · intro e he
    unfold CodeIndexer.remove_file
    rw [he]
    rfl
  · intro hok e he
    unfold CodeIndexer.remove_file
    rw [hok, he]
    rfl

/-- Witness for `C10_index_file_infallible`: a concrete environment where the
vector-store delete fails with "disk full"; `remove_file` propagates it. -/
theorem C10_index_file_infallible_witness :
    CodeIndexer.remove_file
      { ext := "rs", storageDeleteRes := .error "disk full",
        bm25DeleteRes := .ok (), openRes := some (),
        chunkRes := .ok [], embedRes := .ok [],
        storageAddRes := .ok (), bm25AddRes := .ok () }
      = .error "disk full" :=
  (C10_index_file_infallible _).2.1 "disk full" rfl

/-! ### C4: the fused RRF score formula -/

theorem error_bind {α β : Type} (e : String) (f : α → Except String β) :
    (Except.error e >>= f : Except String β) = Except.error e := rfl

/-- The row loop adds exactly the spec-side per-row RRF contributions to a
candidate's score-map entry. -/
theorem processBatchRows_scores (k : ℚ) (i : String) :
    ∀ (rows : List VecRow) (start : Nat) (scores : String → ℚ)
      (acc : List (String × SearchResult)),
      (CodeSearcher.processBatchRows k rows start scores acc).1 i
        = scores i + specRowsContrib k i rows start := by
  intro rows
  induction rows with
  | nil =>
    intro start scores acc
    simp [CodeSearcher.processBatchRows, specRowsContrib]
  | cons row rest ih =>
    intro start scores acc
    simp only [CodeSearcher.processBatchRows, specRowsContrib, ih]
    by_cases h : i = row.id
    · subst h
      rw [if_pos rfl, if_pos rfl]
      ring
    · rw [if_neg h, if_neg (fun hh => h hh.symm)]
      ring

/-- The batch loop adds exactly the spec-side per-batch contributions. -/
theorem processBatches_scores (k : ℚ) (i : String) :
    ∀ (batches : List (List VecRow)) (scores : String → ℚ)
      (acc : List (String × SearchResult)),
      (CodeSearcher.processBatches k batches scores acc).1 i
        = scores i + specVecContrib k i batches := by
  intro batches
  induction batches with
  | nil =>
    intro scores acc
    simp [CodeSearcher.processBatches, specVecContrib]
  | cons b more ih =>
    intro scores acc
    simp only [CodeSearcher.processBatches, specVecContrib, List.map_cons,
      List.sum_cons, ih, processBatchRows_scores]
    ring

/-- A successful vector phase leaves each candidate's score-map entry at its
initial value plus the sum over queries of the spec-side contribution of
that query's record batches. -/
theorem vectorPhase_scores (env : SearchEnv) (k : ℚ) (fl : Nat)
    (fs ws : Option String) (i : String) :
    ∀ (queries : List String) (scores0 : String → ℚ)
      (acc0 : List (String × SearchResult)) (scores : String → ℚ)
      (acc : List (String × SearchResult)),
      CodeSearcher.vectorPhase env k fl fs ws queries scores0 acc0
          = .ok (scores, acc) →
      scores i = scores0 i
        + (queries.map fun q =>
            specVecContrib k i (specQueryBatches env fl fs ws q)).sum := by
  intro queries
  induction queries with
  | nil =>
    intro scores0 acc0 scores acc h
    simp only [CodeSearcher.vectorPhase, Except.ok.injEq, Prod.mk.injEq] at h
    obtain ⟨rfl, rfl⟩ := h
    simp
  | cons q rest ih =>
    intro scores0 acc0 scores acc h
    simp only [CodeSearcher.vectorPhase] at h
    cases hq : env.embed q with
    | error e =>
      rw [hq, error_bind] at h
      exact absurd h (by simp)
    | ok vectors =>
      rw [hq, ok_bind] at h
      cases hv : vectors.head? with
      | none =>
        rw [hv] at h
        simp only [] at h
        have hres := ih _ _ _ _ h
        rw [hres]
        simp only [List.map_cons, List.sum_cons, specQueryBatches, hq, hv]
        simp [specVecContrib]
      | some v =>
        rw [hv] at h
        simp only [] at h
        cases hss : env.storageSearch v fl fs ws with
        | error e =>
          rw [hss, error_bind] at h
          exact absurd h (by simp)
        | ok batches =>
          rw [hss, ok_bind] at h
          have hres := ih _ _ _ _ h
          rw [hres, processBatches_scores]
          simp only [List.map_cons, List.sum_cons, specQueryBatches, hq, hv,
            hss]
          ring

/-- A chunk id that occurs in no BM25 result has no spec-side rank. -/
theorem specBm25Rank_none (i : String) :
    ∀ results : List BM25Result, (∀ r ∈ results, ¬(r.id = i)) →
      specBm25Rank results i = none := by
  intro results
  induction results with
  | nil => intro _; rfl
  | cons res rest ih =>
    intro h
    simp only [specBm25Rank, if_neg (h res (List.mem_cons_self res rest))]
    rw [ih (fun r hr => h r (List.mem_cons_of_mem res hr))]
    rfl

/-- On duplicate-free BM25 results the `bm25_ranks` map built by
`semantic_search` is exactly the spec-side first-occurrence rank (shifted by
the starting index). -/
theorem buildBm25Ranks_eq (i : String) :
    ∀ (results : List BM25Result) (start : Nat) (m : String → Option Nat),
      ((results.map (·.id)).Nodup) →
      CodeSearcher.buildBm25Ranks results start m i
        = (match specBm25Rank results i with
           | some r => some (start + r)
           | none => m i) := by
  intro results
  induction results with
  | nil =>
    intro start m _
    rfl
  | cons res rest ih =>
    intro start m hnd
    rw [List.map_cons, List.nodup_cons] at hnd
    obtain ⟨hni, hnd2⟩ := hnd
    simp only [CodeSearcher.buildBm25Ranks]
    rw [ih (start + 1) _ hnd2]
    by_cases h : res.id = i
    · have hrest : specBm25Rank rest i = none :=
        specBm25Rank_none i rest (fun r hr hri =>
          hni (List.mem_map.mpr ⟨r, hr, hri.trans h.symm⟩))
      rw [hrest]
      simp [specBm25Rank, if_pos h, if_pos h.symm]
    · have h2 : ¬ (i = res.id) := fun hh => h hh.symm
      simp only [specBm25Rank, if_neg h, if_neg h2]
      cases hrest : specBm25Rank rest i with
      | none => rfl
      | some r =>
        simp only [Option.map_some']
        simp only [Option.some.injEq]
        omega

/-- **C4**: when the lexical store is configured and its search succeeds,
every candidate's pre-rerank fused score equals `vector_weight` times the
sum, over the search queries, of the candidate's spec-side vector RRF
contributions `1/(rrf_k + rank)`, plus `bm25_weight` times
`1/(rrf_k + bm25_rank)` when the candidate occurs in the (duplicate-free)
BM25 result list at 1-based position `bm25_rank` and plus `0` otherwise;
when no lexical store is configured the score is exactly the vector term. -/
theorem C4_fused_score (s : CodeSearcher) (env : SearchEnv) (fl : Nat)
    (fs ws : Option String) (queries : List String)
    (scores : String → ℚ) (acc : List (String × SearchResult))
    (bm25_results : List BM25Result)
    (hvec : CodeSearcher.vectorPhase env s.rrf_k fl fs ws queries
      (fun _ => 0) [] = .ok (scores, acc))
    (hnodup : ((bm25_results.map (·.id)).Nodup)) :
    (∀ (cands : List SearchResult) (cand : SearchResult),
      cand ∈ CodeSearcher.scoreCandidates s.vector_weight s.bm25_weight
          s.rrf_k scores
          (CodeSearcher.buildBm25Ranks bm25_results 0 (fun _ => none)) cands →
      cand.score
        = s.vector_weight
            * (queries.map fun q =>
                specVecContrib s.rrf_k
                  (CodeSearcher.mkId cand.filename cand.line_start
                    cand.line_end)
                  (specQueryBatches env fl fs ws q)).sum
          + s.bm25_weight
            * (match specBm25Rank bm25_results
                  (CodeSearcher.mkId cand.filename cand.line_start
                    cand.line_end) with
               | some r => CodeSearcher.compute_rrf_component r s.rrf_k
               | none => 0))
    ∧ (∀ (cands : List SearchResult) (cand : SearchResult),
      cand ∈ CodeSearcher.scoreCandidatesVecOnly s.vector_weight scores
          cands →
      cand.score
        = s.vector_weight
            * (queries.map fun q =>
                specVecContrib s.rrf_k
                  (CodeSearcher.mkId cand.filename cand.line_start
                    cand.line_end)
                  (specQueryBatches env fl fs ws q)).sum) := by
  constructor
  · intro cands cand hmem
    simp only [CodeSearcher.scoreCandidates, List.mem_map] at hmem
    obtain ⟨orig, horig, rfl⟩ := hmem
    simp only []
    rw [vectorPhase_scores env s.rrf_k fl fs ws
      (CodeSearcher.mkId orig.filename orig.line_start orig.line_end)
      queries (fun _ => 0) [] scores acc hvec]
    rw [buildBm25Ranks_eq
      (CodeSearcher.mkId orig.filename orig.line_start orig.line_end)
      bm25_results 0 (fun _ => none) hnodup]
    cases hsp : specBm25Rank bm25_results
        (CodeSearcher.mkId orig.filename orig.line_start orig.line_end) with
    | none =>
      simp only []
      ring
    | some r =>
      simp only [Nat.zero_add]
      ring
  · intro cands cand hmem
    simp only [CodeSearcher.scoreCandidatesVecOnly, List.mem_map] at hmem
    obtain ⟨orig, horig, rfl⟩ := hmem
    simp only []
    rw [vectorPhase_scores env s.rrf_k fl fs ws
      (CodeSearcher.mkId orig.filename orig.line_start orig.line_end)
      queries (fun _ => 0) [] scores acc hvec]
    ring

/-- Closed instance of the C4 score formula on the example pipeline: the
vector hit scores `1 * (1/61) + 2 * 0 = 1/61`. -/
theorem C4_fused_score_witness :
    ((⟨0, 1/61, "a.rs", "codeA", 1, 2, []⟩ : SearchResult).score
      = exSearcher.vector_weight
          * ((["q"].map fun q =>
              specVecContrib exSearcher.rrf_k
                (CodeSearcher.mkId "a.rs" 1 2)
                (specQueryBatches exEnv 2 none none q)).sum)
        + exSearcher.bm25_weight
          * (match specBm25Rank [exBm25B] (CodeSearcher.mkId "a.rs" 1 2) with
             | some r =>
               CodeSearcher.compute_rrf_component r exSearcher.rrf_k
             | none => 0)) :=
  (C4_fused_score exSearcher exEnv 2 none none ["q"] scoresEx accEx [exBm25B]
      (by rfl) (by decide)).1
    [⟨0, 0, "a.rs", "codeA", 1, 2, []⟩]
    ⟨0, 1/61, "a.rs", "codeA", 1, 2, []⟩
    (by
      have hid : CodeSearcher.mkId "a.rs" 1 2 = "a.rs-1-2" := by decide
      simp only [CodeSearcher.scoreCandidates, List.map_cons, List.map_nil,
        CodeSearcher.buildBm25Ranks, exSearcher, scoresEx, exBm25B, hid,
        CodeSearcher.compute_rrf_component, List.mem_singleton,
        SearchResult.mk.injEq]
      norm_num
      rw [if_neg (by decide : ¬ (("a.rs-1-2" : String) = "b.rs-1-2"))])

end CodeRag
